import Mathlib

/-!
go-chained: a shallow embedding of the ledger core.

The Go package `chained` (files `chained.go`, `transaction.go`, `block.go`,
`blockchain.go`, `peer.go`) is embedded as pure Lean functions.

Modelling conventions

* A Go `string` is its byte sequence (`GoString`), so `len` is `List.length`.
* A Go slice is the list of its elements, and the nil slice and the empty slice are
  the same list.  The one `[]byte` field, `Transaction.Data`, keeps the difference
  (`none` is nil) because the constructor writes `[]byte{}` while the zero value has
  nil.  The functions on lists give what the receiver reads in its own fields after a
  call.  `append` can also write into a backing array that a second slice reads (the
  pool and the `Transactions` of a block share one after `MineNewBlock`): the section
  "Slices that share a backing array" repeats the appending functions on slice headers
  over a store of arrays, and `MemAddTransaction_pool` relates the two layers.
* A method with a pointer receiver returns the updated receiver next to its Go
  result.  A Go function returning `(T, error)` returns the pair.
* The standard-library calls whose result the package only passes along
  (`sha512.Sum512`, `json.Marshal`) and the two package-level settings
  `Target` and `IDLength` are the fields of `Env`.  The settings are Go `int`s; the
  embedding covers their non-negative values (`strings.Repeat` fails on a negative
  count, a slice bound cannot be negative).  `goEnv T` is the instance with the Go
  standard library itself: SHA-512 and the output of `encoding/json`, with times in UTC.
* `time.Now()` is a sequence of readings `now 0, now 1, ...`, consumed in call order.
* The nonce search is unbounded in Go; here it carries a fuel bound and reports
  `Run.outOfFuel` when the bound is reached before the search ends.
-/

namespace Chained

/-! ## Strings and the library functions used on them -/

/-- Go string: an immutable sequence of bytes. -/
abbrev GoString := List UInt8

/-- Bytes of a string literal of the source (UTF-8, as the Go compiler stores it). -/
def str (s : String) : GoString := s.data.flatMap String.utf8EncodeChar

/-- Go `strings.Repeat(s, count)` for a non-negative count. -/
def strings.Repeat (s : GoString) (count : Nat) : GoString :=
  (List.replicate count s).flatten

/-- Go `strings.HasPrefix(s, p)`: `len(s) >= len(p) && s[:len(p)] == p`. -/
def strings.HasPrefix (s p : GoString) : Bool :=
  decide (s.length ≥ p.length) && (s.take p.length == p)

/-- Go `utf8.RuneError`. -/
def RuneError : Nat := 0xFFFD

/-- Whether `b` lies in the accepted range of a continuation byte. -/
def inRange (lo hi : Nat) (b : UInt8) : Bool := decide (lo ≤ b.toNat) && decide (b.toNat ≤ hi)

/-- Go `utf8.DecodeRuneInString`: the first rune of `s` and its width in bytes;
`(RuneError, 0)` on the empty string and `(RuneError, 1)` on an invalid encoding. -/
def DecodeRune (s : GoString) : Nat × Nat :=
  match s with
  | [] => (RuneError, 0)
  | p0 :: rest =>
    let c := p0.toNat
    if c < 0x80 then (c, 1)
    else if c < 0xC2 then (RuneError, 1)
    else if c < 0xE0 then
      match rest with
      | b1 :: _ =>
        if inRange 0x80 0xBF b1 then ((c % 32) * 64 + b1.toNat % 64, 2) else (RuneError, 1)
      | _ => (RuneError, 1)
    else if c < 0xF0 then
      let lo := if c = 0xE0 then 0xA0 else 0x80
      let hi := if c = 0xED then 0x9F else 0xBF
      match rest with
      | b1 :: b2 :: _ =>
        if inRange lo hi b1 && inRange 0x80 0xBF b2 then
          ((c % 16) * 4096 + (b1.toNat % 64) * 64 + b2.toNat % 64, 3)
        else (RuneError, 1)
      | _ => (RuneError, 1)
    else if c < 0xF5 then
      let lo := if c = 0xF0 then 0x90 else 0x80
      let hi := if c = 0xF4 then 0x8F else 0xBF
      match rest with
      | b1 :: b2 :: b3 :: _ =>
        if inRange lo hi b1 && inRange 0x80 0xBF b2 && inRange 0x80 0xBF b3 then
          ((c % 8) * 262144 + (b1.toNat % 64) * 4096 + (b2.toNat % 64) * 64 + b3.toNat % 64, 4)
        else (RuneError, 1)
      | _ => (RuneError, 1)
    else (RuneError, 1)

/-- Go `utf8.RuneStart`: the byte is not a continuation byte. -/
def RuneStart (b : UInt8) : Bool := b.toNat / 64 != 2

/-- The backward scan of `utf8.DecodeLastRuneInString`: from `start` down to `lim`,
stop at the first byte that can start a rune; `steps` bounds the scan (at most
`UTFMax - 1` positions are visited). -/
def lastRuneStart (s : GoString) (lim : Int) : Nat → Int → Int
  | 0, start => start
  | steps + 1, start =>
    if start < lim then start
    else if RuneStart (s.getD start.toNat 0) then start
    else lastRuneStart s lim steps (start - 1)

/-- Go `utf8.DecodeLastRuneInString`: the last rune of `s` and its width. -/
def DecodeLastRune (s : GoString) : Nat × Nat :=
  let e := s.length
  if e = 0 then (RuneError, 0)
  else
    let r := (s.getD (e - 1) 0).toNat
    if r < 0x80 then (r, 1)
    else
      let lim : Int := if (e : Int) - 4 < 0 then 0 else (e : Int) - 4
      let start := lastRuneStart s lim 4 ((e : Int) - 2)
      let start := if start < 0 then 0 else start
      let d := DecodeRune (s.drop start.toNat)
      if start.toNat + d.2 ≠ e then (RuneError, 1) else d

/-- Go `unicode.IsSpace`: the code points with the White_Space property. -/
def IsSpace (r : Nat) : Bool :=
  decide ((0x09 ≤ r ∧ r ≤ 0x0D) ∨ r = 0x20 ∨ r = 0x85 ∨ r = 0xA0 ∨ r = 0x1680
    ∨ (0x2000 ≤ r ∧ r ≤ 0x200A) ∨ r = 0x2028 ∨ r = 0x2029 ∨ r = 0x202F
    ∨ r = 0x205F ∨ r = 0x3000)

/-- Go `strings.TrimLeftFunc(s, unicode.IsSpace)`; `n` bounds the number of runes. -/
def trimLeftSpace : Nat → GoString → GoString
  | 0, s => s
  | n + 1, s =>
    let d := DecodeRune s
    if d.2 = 0 then s
    else if IsSpace d.1 then trimLeftSpace n (s.drop d.2)
    else s

/-- Go `strings.TrimRightFunc(s, unicode.IsSpace)`; `n` bounds the number of runes. -/
def trimRightSpace : Nat → GoString → GoString
  | 0, s => s
  | n + 1, s =>
    let d := DecodeLastRune s
    if d.2 = 0 then s
    else if IsSpace d.1 then trimRightSpace n (s.take (s.length - d.2))
    else s

/-- Go `strings.TrimSpace`: leading and trailing Unicode white space removed. -/
def strings.TrimSpace (s : GoString) : GoString :=
  trimRightSpace s.length (trimLeftSpace s.length s)

/-- The digit table of `encoding/hex`. -/
def hextable : GoString := str "0123456789abcdef"

/-- Go `hex.EncodeToString`: two lower-case hex digits per byte, high nibble first. -/
def EncodeToString (src : List UInt8) : GoString :=
  src.flatMap (fun v => [hextable.getD (v.toNat / 16) 0, hextable.getD (v.toNat % 16) 0])

/-! ## chained.go -/

/-- Go `sha512.Size`: the digest has 64 bytes. -/
def sha512Size : Nat := 64

/-- Source constant `HashStringSize = sha512.Size * 2`. -/
def HashStringSize : Nat := sha512Size * 2

/-- The errors of the package. -/
inductive Err where
  | ErrInvalidData
  | ErrJSONFormat
  deriving DecidableEq, Repr

/-- Go `time.Time`, kept abstract: an instant counted from the zero value `time.Time{}`. -/
structure Time where
  nanos : Int
  deriving DecidableEq, Repr

/-- The zero value `time.Time{}`. -/
def Time.zero : Time := ⟨0⟩

/-- Source struct `Transaction`. -/
structure Transaction where
  Recipient : GoString
  Sender : GoString
  Message : GoString
  Data : Option (List UInt8)
  Timestamp : Time
  deriving DecidableEq, Repr

/-- The zero value `Transaction{}`. -/
def Transaction.zero : Transaction := ⟨[], [], [], none, Time.zero⟩

/-- Source struct `Block`; `Nonce` is a Go `int`. -/
structure Block where
  Nonce : Int
  Transactions : List Transaction
  PreviousHash : GoString
  Timestamp : Time
  deriving DecidableEq, Repr

/-- The zero value `Block{}`. -/
def Block.zero : Block := ⟨0, [], [], Time.zero⟩

/-- Source struct `Peer`; `Port` is a Go `uint`. -/
structure Peer where
  Host : GoString
  Port : Nat
  deriving DecidableEq, Repr

/-- Source struct `Blockchain`. -/
structure Blockchain where
  Blocks : List Block
  TransactionPool : List Transaction
  ChainID : GoString
  Peers : List Peer
  creationTime : Time
  deriving DecidableEq, Repr

/-- The package settings and the library functions the package calls.
`Sum512` has the type of `sha512.Sum512`, whose result is a `[64]byte`;
`MarshalTransaction` and `MarshalBlock` are `json.Marshal` at the two struct types
(`none` when it reports an error). -/
structure Env where
  Target : Nat
  IDLength : Nat
  Sum512 : List UInt8 → { d : List UInt8 // d.length = sha512Size }
  MarshalTransaction : Transaction → Option GoString
  MarshalBlock : Block → Option GoString

/-- Source `toJSONString`, applied to the result of `json.Marshal(v)`. -/
def toJSONString (marshalled : Option GoString) : GoString × Option Err :=
  match marshalled with
  | none => ([], some Err.ErrJSONFormat)
  | some bs => (bs, none)

/-- Source `hash512String`. -/
def hash512String (E : Env) (bs : List UInt8) : GoString :=
  let hash := E.Sum512 bs
  let hashString := EncodeToString hash.1
  hashString

/-! ## transaction.go -/

/-- Source `Transaction.IsValid`. -/
def Transaction.IsValid (t : Transaction) : Bool :=
  let recipeintEmpty := strings.TrimSpace t.Recipient == []
  let senderEmpty := strings.TrimSpace t.Sender == []
  let messageEmpty := strings.TrimSpace t.Message == []
  if recipeintEmpty || senderEmpty || messageEmpty then false
  else true

/-- Source `NewTransaction`. -/
def NewTransaction (r s m : GoString) (ts : Time) : Transaction × Option Err :=
  let trans : Transaction := ⟨r, s, m, some [], ts⟩
  if !trans.IsValid then (Transaction.zero, some Err.ErrInvalidData)
  else (trans, none)

/-- Source `NewTransactionNow`; `now` is the reading `time.Now()` returns. -/
def NewTransactionNow (now : Time) (r s m : GoString) : Transaction × Option Err :=
  NewTransaction r s m now

/-- Source `Transaction.JSONString`. -/
def Transaction.JSONString (E : Env) (t : Transaction) : GoString :=
  (toJSONString (E.MarshalTransaction t)).1

/-! ## block.go -/

/-- Source `Block.JSONString`. -/
def Block.JSONString (E : Env) (b : Block) : GoString :=
  (toJSONString (E.MarshalBlock b)).1

/-- Source `Block.Hash`. -/
def Block.Hash (E : Env) (b : Block) : GoString :=
  hash512String E (b.JSONString E)

/-- The first loop of `Block.IsValid` (also the pool loop of `Blockchain.IsValid`):
`false` as soon as a transaction is invalid, `true` when the range is exhausted. -/
def transactionsLoop : List Transaction → Bool
  | [] => true
  | t :: rest => if !t.IsValid then false else transactionsLoop rest

/-- Source `Block.IsValid`. -/
def Block.IsValid (E : Env) (b : Block) : Bool :=
  if !transactionsLoop b.Transactions then false
  else if b.PreviousHash.length != HashStringSize then false
  else if !strings.HasPrefix (b.Hash E) (strings.Repeat (str "0") E.Target) then false
  else true

/-- Source `NewBlock`. -/
def NewBlock (E : Env) (n : Int) (trans : List Transaction) (ph : GoString) (ts : Time) :
    Block × Option Err :=
  let b : Block := ⟨n, trans, ph, ts⟩
  if !b.IsValid E then (Block.zero, some Err.ErrInvalidData)
  else (b, none)

/-- Source `NewEmptyBlock`. -/
def NewEmptyBlock (E : Env) : Block :=
  let ph := strings.Repeat (str "0") HashStringSize
  (NewBlock E 0 [] ph Time.zero).1

/-- Source `Block.AddTransaction`. -/
def Block.AddTransaction (b : Block) (t : Transaction) : Block × Option Err :=
  if !t.IsValid then (b, some Err.ErrInvalidData)
  else ({ b with Transactions := b.Transactions ++ [t] }, none)

/-! ## blockchain.go -/

/-- Outcome of a call that contains the nonce search. -/
inductive Run (α : Type) where
  /-- The call returned. -/
  | done (a : α)
  /-- The call stopped with a runtime panic. -/
  | panic
  /-- The search was still running when the fuel bound was reached. -/
  | outOfFuel
  deriving DecidableEq, Repr

/-- Go `n++` on an `int` (64 bits, two's complement wrap-around). -/
def incInt (n : Int) : Int := (n + 1 + 2 ^ 63) % 2 ^ 64 - 2 ^ 63

/-- Source `Blockchain.LastBlock`: `b.Blocks[len(b.Blocks)-1]`; `none` is the
index-out-of-range panic on an empty `Blocks`. -/
def Blockchain.LastBlock (b : Blockchain) : Option Block :=
  b.Blocks[b.Blocks.length - 1]?

/-- The block loop of `Blockchain.IsValid`: `blocks` is `b.Blocks`, the second
argument the index `i` and the third the part of the range still to visit.
`b.Blocks[i-1]` is read at `0 < i < len(b.Blocks)` only, so it never fails. -/
def blocksLoop (E : Env) (blocks : List Block) : Nat → List Block → Bool
  | _, [] => true
  | i, block :: rest =>
    if !block.IsValid E then false
    else if i == 0 then
      let ph := strings.Repeat (str "0") HashStringSize
      if block.PreviousHash != ph then false
      else blocksLoop E blocks (i + 1) rest
    else
      match blocks[i - 1]? with
      | none => false
      | some prev =>
        if block.PreviousHash != prev.Hash E then false
        else blocksLoop E blocks (i + 1) rest

/-- Source `Blockchain.IsValid`. -/
def Blockchain.IsValid (E : Env) (b : Blockchain) : Bool :=
  if !blocksLoop E b.Blocks 0 b.Blocks then false
  else if !transactionsLoop b.TransactionPool then false
  else if b.ChainID.length != E.IDLength then false
  else true

/-- Source `Blockchain.VerifiedTransactions`. -/
def Blockchain.VerifiedTransactions (b : Blockchain) : List Transaction :=
  b.Blocks.foldl (fun trans blk => trans ++ blk.Transactions) []

/-- Source `Blockchain.ResolveChain`. -/
def Blockchain.ResolveChain (E : Env) (b b2 : Blockchain) : Blockchain × Bool :=
  if decide (b2.Blocks.length > b.Blocks.length) && b2.IsValid E then
    ({ b with Blocks := b2.Blocks }, true)
  else (b, false)

/-- The inner loop of `ResolveTransactions`: is there a pool entry whose hash is
`tHash`. -/
def containsLoop (E : Env) (tHash : GoString) : List Transaction → Bool
  | [] => false
  | t2 :: rest =>
    let t2Hash := hash512String E (t2.JSONString E)
    if tHash == t2Hash then true
    else containsLoop E tHash rest

/-- The outer loop of `ResolveTransactions` over the candidates still to visit,
with the receiver and the local `tAdded` as they stand. The list is the pool as the
receiver reads it; `memResolveLoop` has the write into the backing array. -/
def resolveLoop (E : Env) : List Transaction → Blockchain → Bool → Blockchain × Bool
  | [], b, tAdded => (b, tAdded)
  | t :: rest, b, tAdded =>
    if !t.IsValid then (b, false)
    else
      let tHash := hash512String E (t.JSONString E)
      let contains := containsLoop E tHash b.TransactionPool
      if !contains then
        resolveLoop E rest { b with TransactionPool := b.TransactionPool ++ [t] } true
      else resolveLoop E rest b tAdded

/-- Source `Blockchain.ResolveTransactions`. -/
def Blockchain.ResolveTransactions (E : Env) (b : Blockchain) (ts : List Transaction) :
    Blockchain × Bool :=
  resolveLoop E ts b false

/-- Source `Blockchain.AddBlock`. -/
def Blockchain.AddBlock (E : Env) (b : Blockchain) (block : Block) : Blockchain × Option Err :=
  if !block.IsValid E then (b, some Err.ErrInvalidData)
  else ({ b with Blocks := b.Blocks ++ [block] }, none)

/-- Source `Blockchain.AddTransaction`. The list is the pool as the receiver reads it
after the call; `MemBlockchain.AddTransaction` has the write into the backing array. -/
def Blockchain.AddTransaction (b : Blockchain) (t : Transaction) : Blockchain × Option Err :=
  if !t.IsValid then (b, some Err.ErrInvalidData)
  else ({ b with TransactionPool := b.TransactionPool ++ [t] }, none)

/-- The search loop of `MineNewBlock`. `k` is the index of the next clock reading,
`pool` the receiver's `TransactionPool` and `rw` the reward transaction. The list is
what the block reads; `memMineLoop` has the write into the array of the pool. -/
def mineLoop (E : Env) (now : Nat → Time) (pool : List Transaction) (rw : Transaction) :
    Nat → Nat → Block → Run Block
  | fuel, k, block =>
    if block.IsValid E then Run.done block
    else
      match fuel with
      | 0 => Run.outOfFuel
      | fuel + 1 =>
        let block := { block with Nonce := incInt block.Nonce }
        let block := { block with Timestamp := now k }
        let block := { block with Transactions := pool }
        let block := { block with Transactions := block.Transactions ++ [rw] }
        mineLoop E now pool rw fuel (k + 1) block

/-- Source `Blockchain.MineNewBlock`. The clock is read once for the block, once
inside `NewTransactionNow`, then once per iteration of the search. The result is the
block as the caller reads it on return; `MemBlockchain.MineNewBlock` has the write of
the reward into the array of the pool. -/
def Blockchain.MineNewBlock (E : Env) (now : Nat → Time) (fuel : Nat) (b : Blockchain) :
    Run Block :=
  let block := NewEmptyBlock E
  let block := { block with Timestamp := now 0 }
  let block := { block with Transactions := b.TransactionPool }
  match b.LastBlock with
  | none => Run.panic
  | some last =>
    let block := { block with PreviousHash := last.Hash E }
    let rw := (NewTransactionNow (now 1) b.ChainID (str "root") (str "MINED")).1
    let block := { block with Transactions := block.Transactions ++ [rw] }
    mineLoop E now b.TransactionPool rw fuel 2 block

/-- Source `Blockchain.MineNewBlockAndApply`. The lists are the pool and the new block
as the receiver reads them; `MemBlockchain.MineNewBlockAndApply` has the effect of the
reward written into the array of the pool on the blocks that read that array. -/
def Blockchain.MineNewBlockAndApply (E : Env) (now : Nat → Time) (fuel : Nat)
    (b : Blockchain) : Run Blockchain :=
  match b.MineNewBlock E now fuel with
  | Run.done block =>
    let b := { b with TransactionPool := [] }
    Run.done { b with Blocks := b.Blocks ++ [block] }
  | Run.panic => Run.panic
  | Run.outOfFuel => Run.outOfFuel

/-- Source `Blockchain.CreationTime`. -/
def Blockchain.CreationTime (b : Blockchain) : Time := b.creationTime

/-! ## Notions used to state the properties -/

/-- The string of 128 characters `0`. -/
def zeroHash : GoString := List.replicate 128 0x30

/-- What the block loop of `Blockchain.IsValid` checks at index `j`, block `cur`. -/
def linkOk (E : Env) (blocks : List Block) (j : Nat) (cur : Block) : Prop :=
  cur.IsValid E = true ∧
    (j = 0 → cur.PreviousHash = zeroHash) ∧
    (∀ prev, 0 < j → blocks[j - 1]? = some prev → cur.PreviousHash = prev.Hash E)

/-- Content fingerprint of a transaction: the hash of its JSON string. -/
def fingerprint (E : Env) (t : Transaction) : GoString :=
  hash512String E (t.JSONString E)

/-! ## A small instance of the library interface, for evaluating the definitions -/

/-- Sum of the bytes, modulo 256. -/
def byteSum (bs : List UInt8) : Nat := (bs.foldl (fun a b => a + b.toNat) 0) % 256

/-- A 64-byte digest for evaluation: byte `i` is the byte sum of the input plus `37 * i`. -/
def demoSum512 (bs : List UInt8) : { d : List UInt8 // d.length = sha512Size } :=
  ⟨(List.range sha512Size).map (fun i => (byteSum bs + 37 * i).toUInt8), by simp⟩

/-- A serialisation of a transaction for evaluation: the fields, comma separated. -/
def demoMarshalTransaction (t : Transaction) : Option GoString :=
  some (t.Recipient ++ [0x2c] ++ t.Sender ++ [0x2c] ++ t.Message ++ [0x2c]
    ++ t.Data.getD [] ++ [0x2c, (t.Timestamp.nanos % 256).toNat.toUInt8])

/-- A serialisation of a block for evaluation. -/
def demoMarshalBlock (b : Block) : Option GoString :=
  some ([(b.Nonce % 256).toNat.toUInt8, 0x2c]
    ++ b.Transactions.flatMap (fun t => (demoMarshalTransaction t).getD [])
    ++ [0x2c] ++ b.PreviousHash ++ [0x2c, (b.Timestamp.nanos % 256).toNat.toUInt8])

/-- Evaluation instance with `Target = 1` and `IDLength = 16`. -/
def demoEnv : Env := ⟨1, 16, demoSum512, demoMarshalTransaction, demoMarshalBlock⟩

/-- Evaluation instance with `Target = 0`: the proof-of-work check passes for any digest. -/
def demoEnv0 : Env := ⟨0, 16, demoSum512, demoMarshalTransaction, demoMarshalBlock⟩

/-- A clock whose `k`-th reading is `k` nanoseconds after the zero time. -/
def demoClock (k : Nat) : Time := ⟨k⟩

/-- The genesis transaction of `NewBlockchain`. -/
def demoGenesis : Transaction := ⟨str "root", str "root", str "GENESIS", some [], Time.zero⟩

/-- A pool transaction. -/
def demoBob : Transaction := ⟨str "bob", str "alice", str "hi", some [], ⟨174⟩⟩

/-- A chain that is valid under `demoEnv`: one block, one pool transaction. -/
def demoChain : Blockchain :=
  ⟨[⟨13622, [demoGenesis], zeroHash, Time.zero⟩], [demoBob], str "0123456789abcdef", [],
    Time.zero⟩

/-- Specification side, with the fingerprints already met given as `seen`: the
candidates of `ts`, in order, whose fingerprint is neither in `seen` nor that of an
earlier candidate. -/
def novelAfter (E : Env) (seen : List GoString) (ts : List Transaction) : List Transaction :=
  (List.range ts.length).flatMap (fun i =>
    match ts[i]? with
    | none => []
    | some t =>
      if fingerprint E t ∈ seen ++ (ts.take i).map (fingerprint E) then [] else [t])

/-- Specification side (from the wording of C5): the candidates of `ts`, in candidate order, whose
fingerprint equals neither the fingerprint of an entry of the old pool nor that of
an earlier candidate of `ts`. -/
def novelCandidates (E : Env) (pool ts : List Transaction) : List Transaction :=
  novelAfter E (pool.map (fingerprint E)) ts

/-- A second pool candidate. -/
def demoCarol : Transaction := ⟨str "carol", str "bob", str "thanks", some [], ⟨9⟩⟩

/-- The reward transaction `MineNewBlock` builds on `demoChain` under `demoClock`. -/
def demoReward : Transaction :=
  ⟨str "0123456789abcdef", str "root", str "MINED", some [], ⟨1⟩⟩

/-- The block `MineNewBlock` returns on `demoChain` under `demoEnv` (three rounds). -/
def demoMined : Block :=
  ⟨3, [demoBob, demoReward],
    Block.Hash demoEnv ⟨13622, [demoGenesis], zeroHash, Time.zero⟩, ⟨4⟩⟩

/-- The block `MineNewBlock` returns on `demoChain` under `demoEnv0` (no round). -/
def demoMined0 : Block :=
  ⟨0, [demoBob, demoReward],
    Block.Hash demoEnv0 ⟨13622, [demoGenesis], zeroHash, Time.zero⟩, ⟨0⟩⟩

/-! ## peer.go -/

/-- The fragment of Go `regexp` syntax that the pattern of `Peer.IsValid` uses:
`^`, `$` (begin and end of text, no flags), the empty expression, `\d` (an ASCII
digit), a literal byte, concatenation and alternation. -/
inductive Re where
  | bol
  | eol
  | empty
  | digit
  | byte (b : UInt8)
  | seq (a b : Re)
  | alt (a b : Re)
  deriving DecidableEq, Repr

/-- The positions at which a match of the expression that starts at position `i` of
`s` can end. -/
def Re.matchEnds (s : GoString) : Re → Nat → List Nat
  | Re.bol, i => if i = 0 then [i] else []
  | Re.eol, i => if i = s.length then [i] else []
  | Re.empty, i => [i]
  | Re.digit, i =>
    match s[i]? with
    | some c => if 0x30 ≤ c.toNat ∧ c.toNat ≤ 0x39 then [i + 1] else []
    | none => []
  | Re.byte b, i =>
    match s[i]? with
    | some c => if c = b then [i + 1] else []
    | none => []
  | Re.seq a b, i => (Re.matchEnds s a i).flatMap (Re.matchEnds s b)
  | Re.alt a b, i => Re.matchEnds s a i ++ Re.matchEnds s b i

/-- The expression `x{n}`: `n` copies of `x` in a row. -/
def Re.times : Nat → Re → Re
  | 0, _ => Re.empty
  | n + 1, x => Re.seq x (Re.times n x)

/-- The expression `x{0,n}`: at most `n` copies of `x` in a row. -/
def Re.upTo : Nat → Re → Re
  | 0, _ => Re.empty
  | n + 1, x => Re.alt (Re.seq x (Re.upTo n x)) Re.empty

/-- A literal string as an expression. -/
def Re.lit : GoString → Re
  | [] => Re.empty
  | b :: rest => Re.seq (Re.byte b) (Re.lit rest)

/-- Go `(*Regexp).MatchString`: some substring of `s` matches the expression. -/
def Re.MatchString (re : Re) (s : GoString) : Bool :=
  (List.range (s.length + 1)).any (fun i => !(Re.matchEnds s re i).isEmpty)

/-- The pattern of `Peer.IsValid`, `^localhost|(\d{0,3}\.){3}\d{0,3}$`, as Go parses
it: alternation binds weakest, so `^` belongs to the first branch only and `$` to the
second branch only. -/
def hostPattern : Re :=
  Re.alt
    (Re.seq Re.bol (Re.lit (str "localhost")))
    (Re.seq (Re.times 3 (Re.seq (Re.upTo 3 Re.digit) (Re.byte 0x2e)))
      (Re.seq (Re.upTo 3 Re.digit) Re.eol))

/-- Source `Peer.IsValid`. -/
def Peer.IsValid (p : Peer) : Bool :=
  let reg := hostPattern
  if !reg.MatchString p.Host then false
  else if p.Port < 1000 then false
  else true

/-- Source `NewPeer`. -/
def NewPeer (h : GoString) (p : Nat) : Peer × Option Err :=
  let peer : Peer := ⟨h, p⟩
  if !peer.IsValid then (⟨[], 0⟩, some Err.ErrInvalidData)
  else (peer, none)

/-- Source `Blockchain.AddPeer`. -/
def Blockchain.AddPeer (b : Blockchain) (peer : Peer) : Blockchain × Option Err :=
  if !peer.IsValid then (b, some Err.ErrInvalidData)
  else ({ b with Peers := b.Peers ++ [peer] }, none)

/-! ## blockchain.go: construction -/

/-- Go `strconv.Itoa`: the decimal digits, with a leading `-` for a negative number. -/
def Itoa (n : Int) : GoString :=
  match n with
  | Int.ofNat m => str (Nat.repr m)
  | Int.negSucc m => str "-" ++ str (Nat.repr (m + 1))

/-- The nonce search of `NewBlockchain`: `for !block.IsValid() { block.Nonce++ }`. -/
def genesisLoop (E : Env) : Nat → Block → Run Block
  | fuel, block =>
    if block.IsValid E then Run.done block
    else
      match fuel with
      | 0 => Run.outOfFuel
      | fuel + 1 => genesisLoop E fuel { block with Nonce := incInt block.Nonce }

/-- Source `NewBlockchain`. `timeString` is the method `time.Time.String`; the clock is
read once for the identifier and once for `creationTime`. The slice `[:IDLength]`
panics when `IDLength` exceeds the length of the hash string. -/
def NewBlockchain (E : Env) (timeString : Time → GoString) (now : Nat → Time) (fuel : Nat) :
    Run Blockchain :=
  let ph := strings.Repeat (str "0") HashStringSize
  let t : Transaction := ⟨str "root", str "root", str "GENESIS", some [], Time.zero⟩
  let block : Block := ⟨13466, [t], ph, Time.zero⟩
  match genesisLoop E fuel block with
  | Run.done block =>
    let h := hash512String E (timeString (now 0) ++ Itoa block.Nonce)
    if E.IDLength ≤ h.length then
      Run.done ⟨[block], [], h.take E.IDLength, [], now 1⟩
    else Run.panic
  | Run.panic => Run.panic
  | Run.outOfFuel => Run.outOfFuel

/-- Source `NewBlockchainWithIdentifier`. -/
def NewBlockchainWithIdentifier (E : Env) (timeString : Time → GoString) (now : Nat → Time)
    (fuel : Nat) (id : GoString) : Run Blockchain :=
  match NewBlockchain E timeString now fuel with
  | Run.done b => Run.done { b with ChainID := id }
  | Run.panic => Run.panic
  | Run.outOfFuel => Run.outOfFuel

/-- A rendering of a clock reading for evaluation: the decimal nanosecond count. -/
def demoTimeString (t : Time) : GoString := Itoa t.nanos

/-- The genesis block `NewBlockchain` finds under `demoEnv` (156 rounds). -/
def demoGenesisBlock : Block := ⟨13622, [demoGenesis], zeroHash, Time.zero⟩

/-- The chain `NewBlockchain` returns under `demoEnv`, `demoTimeString`, `demoClock`. -/
def demoNewChain : Blockchain :=
  ⟨[demoGenesisBlock], [], str "2e53789dc2e70c31", [], ⟨1⟩⟩

/-- The three collection facts of C16: every pool transaction, every block and every
peer of the chain is individually valid. -/
def EntitiesValid (E : Env) (c : Blockchain) : Prop :=
  (∀ t ∈ c.TransactionPool, t.IsValid = true) ∧
  (∀ b ∈ c.Blocks, b.IsValid E = true) ∧
  (∀ p ∈ c.Peers, p.IsValid = true)

instance (E : Env) (c : Blockchain) : Decidable (EntitiesValid E c) := by
  unfold EntitiesValid
  infer_instance

/-- A chain whose identifier is two spaces. -/
def demoBlankChain : Blockchain :=
  ⟨[demoGenesisBlock], [demoBob], str "  ", [], Time.zero⟩

/-! ## The standard library behind `Env`: `crypto/sha512` and `encoding/json`

SHA-512 follows FIPS 180-4; words are numbers below `2^64`. -/

/-- Rotation of a 64-bit word to the right by `n` places (`ROTR`). -/
def sha512.rotr (x n : Nat) : Nat :=
  Nat.lor (Nat.shiftRight x n) (Nat.shiftLeft (Nat.mod x (Nat.pow 2 n)) (Nat.sub 64 n))

/-- Addition of 64-bit words, modulo `2^64`. -/
def sha512.add (x y : Nat) : Nat := Nat.mod (Nat.add x y) 18446744073709551616

/-- The eighty round constants of SHA-512. -/
def sha512.K : List Nat := [
  0x428a2f98d728ae22, 0x7137449123ef65cd, 0xb5c0fbcfec4d3b2f, 0xe9b5dba58189dbbc,
  0x3956c25bf348b538, 0x59f111f1b605d019, 0x923f82a4af194f9b, 0xab1c5ed5da6d8118,
  0xd807aa98a3030242, 0x12835b0145706fbe, 0x243185be4ee4b28c, 0x550c7dc3d5ffb4e2,
  0x72be5d74f27b896f, 0x80deb1fe3b1696b1, 0x9bdc06a725c71235, 0xc19bf174cf692694,
  0xe49b69c19ef14ad2, 0xefbe4786384f25e3, 0x0fc19dc68b8cd5b5, 0x240ca1cc77ac9c65,
  0x2de92c6f592b0275, 0x4a7484aa6ea6e483, 0x5cb0a9dcbd41fbd4, 0x76f988da831153b5,
  0x983e5152ee66dfab, 0xa831c66d2db43210, 0xb00327c898fb213f, 0xbf597fc7beef0ee4,
  0xc6e00bf33da88fc2, 0xd5a79147930aa725, 0x06ca6351e003826f, 0x142929670a0e6e70,
  0x27b70a8546d22ffc, 0x2e1b21385c26c926, 0x4d2c6dfc5ac42aed, 0x53380d139d95b3df,
  0x650a73548baf63de, 0x766a0abb3c77b2a8, 0x81c2c92e47edaee6, 0x92722c851482353b,
  0xa2bfe8a14cf10364, 0xa81a664bbc423001, 0xc24b8b70d0f89791, 0xc76c51a30654be30,
  0xd192e819d6ef5218, 0xd69906245565a910, 0xf40e35855771202a, 0x106aa07032bbd1b8,
  0x19a4c116b8d2d0c8, 0x1e376c085141ab53, 0x2748774cdf8eeb99, 0x34b0bcb5e19b48a8,
  0x391c0cb3c5c95a63, 0x4ed8aa4ae3418acb, 0x5b9cca4f7763e373, 0x682e6ff3d6b2b8a3,
  0x748f82ee5defb2fc, 0x78a5636f43172f60, 0x84c87814a1f0ab72, 0x8cc702081a6439ec,
  0x90befffa23631e28, 0xa4506cebde82bde9, 0xbef9a3f7b2c67915, 0xc67178f2e372532b,
  0xca273eceea26619c, 0xd186b8c721c0c207, 0xeada7dd6cde0eb1e, 0xf57d4f7fee6ed178,
  0x06f067aa72176fba, 0x0a637dc5a2c898a6, 0x113f9804bef90dae, 0x1b710b35131c471b,
  0x28db77f523047d84, 0x32caab7b40c72493, 0x3c9ebe0a15c9bebc, 0x431d67c49c100d4c,
  0x4cc5d4becb3e42b6, 0x597f299cfc657e2a, 0x5fcb6fab3ad6faec, 0x6c44198c4a475817]

/-- The eight working variables of the compression function, also the hash value
between blocks. -/
structure sha512.State where
  a : Nat
  b : Nat
  c : Nat
  d : Nat
  e : Nat
  f : Nat
  g : Nat
  h : Nat

/-- The rounds of the compression function, over the round constants `K_t` and the
schedule words `W_t` still to use: `T1 = h + Sigma1(e) + Ch(e,f,g) + K_t + W_t`,
`T2 = Sigma0(a) + Maj(a,b,c)`, then `a..h` become `T1 + T2, a, b, c, d + T1, e, f, g`. -/
def sha512.rounds : List Nat → List Nat → Nat → Nat → Nat → Nat → Nat → Nat → Nat → Nat →
    sha512.State
  | k :: ks, w :: ws, a, b, c, d, e, f, g, h =>
    let T1 := sha512.add (sha512.add (sha512.add (sha512.add h
      (Nat.xor (Nat.xor (sha512.rotr e 14) (sha512.rotr e 18)) (sha512.rotr e 41)))
      (Nat.xor (Nat.land e f) (Nat.land (Nat.xor e 18446744073709551615) g))) k) w
    let T2 := sha512.add
      (Nat.xor (Nat.xor (sha512.rotr a 28) (sha512.rotr a 34)) (sha512.rotr a 39))
      (Nat.xor (Nat.xor (Nat.land a b) (Nat.land a c)) (Nat.land b c))
    sha512.rounds ks ws (sha512.add T1 T2) a b c (sha512.add d T1) e f g
  | _, _, a, b, c, d, e, f, g, h => ⟨a, b, c, d, e, f, g, h⟩

/-- The message schedule. The arguments are the sixteen latest words
`W_(t-16) .. W_(t-1)`; the result lists `W_(t-16)` and the `n - 1` words after it, with
`W_t = sigma1(W_(t-2)) + W_(t-7) + sigma0(W_(t-15)) + W_(t-16)`. -/
def sha512.schedule : Nat → Nat → Nat → Nat → Nat → Nat → Nat → Nat → Nat → Nat → Nat → Nat →
    Nat → Nat → Nat → Nat → Nat → List Nat
  | 0, _, _, _, _, _, _, _, _, _, _, _, _, _, _, _, _ => []
  | n + 1, w0, w1, w2, w3, w4, w5, w6, w7, w8, w9, w10, w11, w12, w13, w14, w15 =>
    w0 :: sha512.schedule n w1 w2 w3 w4 w5 w6 w7 w8 w9 w10 w11 w12 w13 w14 w15
      (sha512.add (sha512.add (sha512.add w0
        (Nat.xor (Nat.xor (sha512.rotr w1 1) (sha512.rotr w1 8)) (Nat.shiftRight w1 7))) w9)
        (Nat.xor (Nat.xor (sha512.rotr w14 19) (sha512.rotr w14 61)) (Nat.shiftRight w14 6)))

/-- Word `i` (0 to 15) of a 128-byte block read as one big-endian number. -/
def sha512.wordAt (blk i : Nat) : Nat := (blk >>> (64 * (15 - i))) % 2 ^ 64

/-- The compression function on one 128-byte block. -/
def sha512.compress (hs : sha512.State) (blk : Nat) : sha512.State :=
  let w := sha512.schedule 80 (sha512.wordAt blk 0) (sha512.wordAt blk 1) (sha512.wordAt blk 2)
    (sha512.wordAt blk 3) (sha512.wordAt blk 4) (sha512.wordAt blk 5) (sha512.wordAt blk 6)
    (sha512.wordAt blk 7) (sha512.wordAt blk 8) (sha512.wordAt blk 9) (sha512.wordAt blk 10)
    (sha512.wordAt blk 11) (sha512.wordAt blk 12) (sha512.wordAt blk 13) (sha512.wordAt blk 14)
    (sha512.wordAt blk 15)
  let r := sha512.rounds sha512.K w hs.a hs.b hs.c hs.d hs.e hs.f hs.g hs.h
  ⟨sha512.add hs.a r.a, sha512.add hs.b r.b, sha512.add hs.c r.c, sha512.add hs.d r.d,
    sha512.add hs.e r.e, sha512.add hs.f r.f, sha512.add hs.g r.g, sha512.add hs.h r.h⟩

/-- A byte sequence read as one big-endian number. -/
def sha512.toNat (bs : List UInt8) : Nat := bs.foldl (fun a b => a * 256 + b.toNat) 0

/-- The padded message (the byte `0x80`, zero bytes up to 16 bytes before a multiple
of 128, then the bit length as a 128-bit number) as one big-endian number, and its
number of 128-byte blocks. -/
def sha512.padded (msg : List UInt8) : Nat × Nat :=
  let l := msg.length
  let n := (l + 17 + 127) / 128
  (((sha512.toNat msg * 256 + 0x80) <<< (8 * (128 * n - l - 1))) + 8 * l, n)

/-- The 128-byte blocks of the padded message, in order. -/
def sha512.blocks (p n : Nat) : List Nat :=
  (List.range n).map (fun i => (p >>> (1024 * (n - 1 - i))) % 2 ^ 1024)

/-- The eight bytes of a 64-bit word, most significant first. -/
def sha512.bytes (x : Nat) : List UInt8 :=
  (List.range 8).map (fun i => (x >>> (8 * (7 - i)) % 256).toUInt8)

/-- The SHA-512 digest of `msg`. -/
def sha512.digest (msg : List UInt8) : List UInt8 :=
  let p := sha512.padded msg
  let r := (sha512.blocks p.1 p.2).foldl sha512.compress
    ⟨0x6a09e667f3bcc908, 0xbb67ae8584caa73b, 0x3c6ef372fe94f82b, 0xa54ff53a5f1d36f1,
      0x510e527fade682d1, 0x9b05688c2b3e6c1f, 0x1f83d9abfb41bd6b, 0x5be0cd19137e2179⟩
  sha512.bytes r.a ++ sha512.bytes r.b ++ sha512.bytes r.c ++ sha512.bytes r.d
    ++ sha512.bytes r.e ++ sha512.bytes r.f ++ sha512.bytes r.g ++ sha512.bytes r.h

/-- Go `sha512.Sum512`. -/
def sha512.Sum512 (msg : List UInt8) : { d : List UInt8 // d.length = sha512Size } :=
  ⟨sha512.digest msg, by simp [sha512.digest, sha512.bytes, sha512Size]⟩

/-- The bytes that `encoding/json` writes unescaped inside a string (`htmlSafeSet`):
the ASCII characters from the space on, except the double quote, the backslash, `<`,
`>` and `&`. -/
def json.htmlSafe (b : UInt8) : Bool :=
  decide (0x20 ≤ b.toNat) && decide (b.toNat < 0x80) && b != 0x22 && b != 0x5c && b != 0x3c
    && b != 0x3e && b != 0x26

/-- The escape sequence of an ASCII byte outside `htmlSafeSet`: a backslash before the
double quote and the backslash, `\n`, `\r`, `\t`, and `\u00XX` for the other control
characters and for `<`, `>`, `&`. (From Go 1.22 on the backspace and the form feed have
the short forms `\b` and `\f`; no string evaluated below contains them.) -/
def json.escape (b : UInt8) : GoString :=
  if b = 0x5c ∨ b = 0x22 then [0x5c, b]
  else if b = 0x0a then [0x5c, 0x6e]
  else if b = 0x0d then [0x5c, 0x72]
  else if b = 0x09 then [0x5c, 0x74]
  else [0x5c, 0x75, 0x30, 0x30, hextable.getD (b.toNat / 16) 0, hextable.getD (b.toNat % 16) 0]

/-- The body of a JSON string as `encoding/json` writes it (HTML escaping on, as in
`json.Marshal`); `n` bounds the number of steps. -/
def json.stringBody : Nat → GoString → GoString
  | 0, _ => []
  | _ + 1, [] => []
  | n + 1, b :: rest =>
    if b.toNat < 0x80 then
      (if json.htmlSafe b then [b] else json.escape b) ++ json.stringBody n rest
    else
      let d := DecodeRune (b :: rest)
      if d.1 = RuneError ∧ d.2 = 1 then
        [0x5c, 0x75, 0x66, 0x66, 0x66, 0x64] ++ json.stringBody n rest
      else if d.1 = 0x2028 ∨ d.1 = 0x2029 then
        [0x5c, 0x75, 0x32, 0x30, 0x32, hextable.getD (d.1 % 16) 0]
          ++ json.stringBody n ((b :: rest).drop d.2)
      else (b :: rest).take d.2 ++ json.stringBody n ((b :: rest).drop d.2)

/-- A Go `string` as a JSON value. -/
def json.string (s : GoString) : GoString := [0x22] ++ json.stringBody s.length s ++ [0x22]

/-- The alphabet of `base64.StdEncoding`. -/
def base64.table : GoString :=
  str "ABCDEFGHIJKLMNOPQRSTUVWXYZabcdefghijklmnopqrstuvwxyz0123456789+/"

/-- Go `base64.StdEncoding.EncodeToString`. -/
def base64.EncodeToString : List UInt8 → GoString
  | a :: b :: c :: rest =>
    let v := a.toNat * 65536 + b.toNat * 256 + c.toNat
    [base64.table.getD (v / 262144) 0, base64.table.getD (v / 4096 % 64) 0,
      base64.table.getD (v / 64 % 64) 0, base64.table.getD (v % 64) 0]
      ++ base64.EncodeToString rest
  | [a, b] =>
    let v := a.toNat * 65536 + b.toNat * 256
    [base64.table.getD (v / 262144) 0, base64.table.getD (v / 4096 % 64) 0,
      base64.table.getD (v / 64 % 64) 0, 0x3d]
  | [a] =>
    let v := a.toNat * 65536
    [base64.table.getD (v / 262144) 0, base64.table.getD (v / 4096 % 64) 0, 0x3d, 0x3d]
  | [] => []

/-- A Go `[]byte` as a JSON value: `null` for the nil slice, else the base64 string. -/
def json.bytes (d : Option (List UInt8)) : GoString :=
  match d with
  | none => str "null"
  | some bs => [0x22] ++ base64.EncodeToString bs ++ [0x22]

/-- The decimal digits of `n`, padded with zeros on the left to `width` digits. -/
def zeroPad (width n : Nat) : GoString :=
  let ds := str (Nat.repr n)
  List.replicate (width - ds.length) 0x30 ++ ds

/-- The string `s` without its trailing characters `0`; `n` bounds their number. -/
def trimZeros : Nat → GoString → GoString
  | 0, s => s
  | n + 1, s => if s.getLast? = some 0x30 then trimZeros n s.dropLast else s

/-- Go `Time.MarshalJSON` for an instant in UTC: the quoted `time.RFC3339Nano` form
(the fraction of a second is left out for a whole second, else it is a dot and the
nine digits without trailing zeros); an error (`none`) when the year is outside
`0..9999`. The instant is `t.nanos` nanoseconds after `0001-01-01T00:00:00Z`; the date
is that of the proleptic Gregorian calendar. -/
def Time.MarshalJSON (t : Time) : Option GoString :=
  let shifted := t.nanos + 366 * 86400 * 1000000000
  if shifted < 0 then none
  else
    let total := shifted.toNat
    let ns := total % 1000000000
    let secs := total / 1000000000
    let sod := secs % 86400
    let z := secs / 86400 + 146097 - 60
    let era := z / 146097
    let doe := z % 146097
    let yoe := (doe - doe / 1460 + doe / 36524 - doe / 146096) / 365
    let doy := doe - (365 * yoe + yoe / 4 - yoe / 100)
    let mp := (5 * doy + 2) / 153
    let day := doy - (153 * mp + 2) / 5 + 1
    let month := if mp < 10 then mp + 3 else mp - 9
    let year := yoe + era * 400 + (if month ≤ 2 then 1 else 0) - 400
    if year ≥ 10000 then none
    else
      let frac := if ns = 0 then [] else [0x2e] ++ trimZeros 9 (zeroPad 9 ns)
      some ([0x22] ++ zeroPad 4 year ++ [0x2d] ++ zeroPad 2 month ++ [0x2d] ++ zeroPad 2 day
        ++ [0x54] ++ zeroPad 2 (sod / 3600) ++ [0x3a] ++ zeroPad 2 (sod / 60 % 60) ++ [0x3a]
        ++ zeroPad 2 (sod % 60) ++ frac ++ [0x5a, 0x22])

/-- An object key with its colon. -/
def json.key (k : String) : GoString := [0x22] ++ str k ++ [0x22, 0x3a]

/-- Go `json.Marshal` at type `Transaction`. -/
def json.MarshalTransaction (t : Transaction) : Option GoString :=
  match Time.MarshalJSON t.Timestamp with
  | none => none
  | some ts =>
    some ([0x7b] ++ json.key "Recipient" ++ json.string t.Recipient ++ [0x2c]
      ++ json.key "Sender" ++ json.string t.Sender ++ [0x2c]
      ++ json.key "Message" ++ json.string t.Message ++ [0x2c]
      ++ json.key "Data" ++ json.bytes t.Data ++ [0x2c]
      ++ json.key "Timestamp" ++ ts ++ [0x7d])

/-- The elements of a JSON array of transactions, comma separated. -/
def json.elements : List Transaction → Option GoString
  | [] => some []
  | [t] => json.MarshalTransaction t
  | t :: rest =>
    match json.MarshalTransaction t, json.elements rest with
    | some a, some b => some (a ++ [0x2c] ++ b)
    | _, _ => none

/-- Go `json.Marshal` at type `Block`. An empty `Transactions` is written `[]`, as for
the slice `[]Transaction{}`. -/
def json.MarshalBlock (b : Block) : Option GoString :=
  match json.elements b.Transactions, Time.MarshalJSON b.Timestamp with
  | some ts, some tm =>
    some ([0x7b] ++ json.key "Nonce" ++ Itoa b.Nonce ++ [0x2c]
      ++ json.key "Transactions" ++ [0x5b] ++ ts ++ [0x5d, 0x2c]
      ++ json.key "PreviousHash" ++ json.string b.PreviousHash ++ [0x2c]
      ++ json.key "Timestamp" ++ tm ++ [0x7d])
  | _, _ => none

/-- The package under target `T` with the Go standard library: `sha512.Sum512`,
`json.Marshal`, and the default `IDLength = 16`. -/
def goEnv (T : Nat) : Env := ⟨T, 16, sha512.Sum512, json.MarshalTransaction, json.MarshalBlock⟩

/-! ## Slices that share a backing array

Go's `append(s, x)` writes `x` into the backing array of `s` when `len(s) < cap(s)`, and
every slice header over that array reads the new element. The definitions of this
section repeat the functions of `blockchain.go` that append to a `[]Transaction`, with
the slice headers and the backing arrays explicit. -/

/-- The header of a Go `[]Transaction`: the backing array (its index in the store),
the length and the capacity. The package has no slice expression on a
`[]Transaction`, so every header starts at element 0 of its array. -/
structure TxSlice where
  array : Nat
  len : Nat
  cap : Nat
  deriving DecidableEq, Repr

/-- The backing arrays allocated so far; array `i` has as many elements as its
capacity. -/
abbrev Store := List (List Transaction)

/-- The elements a slice header reads: the first `len` elements of its array. -/
def Store.read (σ : Store) (s : TxSlice) : List Transaction :=
  (σ.getD s.array []).take s.len

/-- The slice `[]Transaction{}`: length 0, capacity 0, nothing allocated. -/
def TxSlice.empty : TxSlice := ⟨0, 0, 0⟩

/-- The capacity `append` allocates when one more element does not fit
(`runtime.growslice`): 1 from capacity 0, else twice the old capacity. This is the
rule for a capacity below 256 and elements of 96 bytes (a `Transaction` on a 64-bit
platform), where the doubled size is a size class of the allocator. -/
def growCap (cap : Nat) : Nat := if cap = 0 then 1 else 2 * cap

/-- Go `append(s, t)`: with spare capacity the element is written in place and the
array is shared with `s`; else the elements are copied to a new array. -/
def goAppend (σ : Store) (s : TxSlice) (t : Transaction) : Store × TxSlice :=
  if s.len < s.cap then
    (σ.set s.array ((σ.getD s.array []).set s.len t), { s with len := s.len + 1 })
  else
    (σ ++ [σ.read s ++ [t] ++ List.replicate (growCap s.cap - (s.len + 1)) Transaction.zero],
      ⟨σ.length, s.len + 1, growCap s.cap⟩)

/-- Source struct `Block`, with the header of its `Transactions`. -/
structure MemBlock where
  Nonce : Int
  Transactions : TxSlice
  PreviousHash : GoString
  Timestamp : Time
  deriving DecidableEq, Repr

/-- The block a `MemBlock` reads as under the store `σ`. -/
def MemBlock.val (σ : Store) (b : MemBlock) : Block :=
  ⟨b.Nonce, σ.read b.Transactions, b.PreviousHash, b.Timestamp⟩

/-- Source struct `Blockchain`, with the header of its `TransactionPool` and of the
`Transactions` of each block. -/
structure MemBlockchain where
  Blocks : List MemBlock
  TransactionPool : TxSlice
  ChainID : GoString
  Peers : List Peer
  creationTime : Time
  deriving DecidableEq, Repr

/-- The chain a `MemBlockchain` reads as under the store `σ`. -/
def MemBlockchain.val (σ : Store) (b : MemBlockchain) : Blockchain :=
  ⟨b.Blocks.map (MemBlock.val σ), σ.read b.TransactionPool, b.ChainID, b.Peers, b.creationTime⟩

/-- Source `Blockchain.AddTransaction`, on slice headers. -/
def MemBlockchain.AddTransaction (σ : Store) (b : MemBlockchain) (t : Transaction) :
    Store × MemBlockchain × Option Err :=
  if !t.IsValid then (σ, b, some Err.ErrInvalidData)
  else
    let r := goAppend σ b.TransactionPool t
    (r.1, { b with TransactionPool := r.2 }, none)

/-- The outer loop of `ResolveTransactions`, on slice headers. -/
def memResolveLoop (E : Env) :
    List Transaction → Store → MemBlockchain → Bool → Store × MemBlockchain × Bool
  | [], σ, b, tAdded => (σ, b, tAdded)
  | t :: rest, σ, b, tAdded =>
    if !t.IsValid then (σ, b, false)
    else
      let tHash := hash512String E (t.JSONString E)
      let contains := containsLoop E tHash (σ.read b.TransactionPool)
      if !contains then
        let r := goAppend σ b.TransactionPool t
        memResolveLoop E rest r.1 { b with TransactionPool := r.2 } true
      else memResolveLoop E rest σ b tAdded

/-- Source `Blockchain.ResolveTransactions`, on slice headers. -/
def MemBlockchain.ResolveTransactions (E : Env) (σ : Store) (b : MemBlockchain)
    (ts : List Transaction) : Store × MemBlockchain × Bool :=
  memResolveLoop E ts σ b false

/-- Source `Blockchain.AddBlock`, on slice headers: the block is copied with its
header, so the chain reads its transactions from the array the header names. -/
def MemBlockchain.AddBlock (E : Env) (σ : Store) (b : MemBlockchain) (block : MemBlock) :
    MemBlockchain × Option Err :=
  if !(block.val σ).IsValid E then (b, some Err.ErrInvalidData)
  else ({ b with Blocks := b.Blocks ++ [block] }, none)

/-- The search loop of `MineNewBlock`, on slice headers: every round takes the header
of the pool again and appends the reward to it. -/
def memMineLoop (E : Env) (now : Nat → Time) (pool : TxSlice) (rw : Transaction) :
    Nat → Nat → Store → MemBlock → Store × Run MemBlock
  | fuel, k, σ, block =>
    if (block.val σ).IsValid E then (σ, Run.done block)
    else
      match fuel with
      | 0 => (σ, Run.outOfFuel)
      | fuel + 1 =>
        let block := { block with Nonce := incInt block.Nonce }
        let block := { block with Timestamp := now k }
        let block := { block with Transactions := pool }
        let r := goAppend σ block.Transactions rw
        let block := { block with Transactions := r.2 }
        memMineLoop E now pool rw fuel (k + 1) r.1 block

/-- Source `Blockchain.MineNewBlock`, on slice headers: `block.Transactions =
b.TransactionPool` copies the header of the pool, and the reward is appended to it. -/
def MemBlockchain.MineNewBlock (E : Env) (now : Nat → Time) (fuel : Nat) (σ : Store)
    (b : MemBlockchain) : Store × Run MemBlock :=
  let e := NewEmptyBlock E
  let block : MemBlock := ⟨e.Nonce, TxSlice.empty, e.PreviousHash, e.Timestamp⟩
  let block := { block with Timestamp := now 0 }
  let block := { block with Transactions := b.TransactionPool }
  match b.Blocks[b.Blocks.length - 1]? with
  | none => (σ, Run.panic)
  | some last =>
    let block := { block with PreviousHash := (last.val σ).Hash E }
    let rw := (NewTransactionNow (now 1) b.ChainID (str "root") (str "MINED")).1
    let r := goAppend σ block.Transactions rw
    let block := { block with Transactions := r.2 }
    memMineLoop E now b.TransactionPool rw fuel 2 r.1 block

/-- Source `Blockchain.MineNewBlockAndApply`, on slice headers. -/
def MemBlockchain.MineNewBlockAndApply (E : Env) (now : Nat → Time) (fuel : Nat) (σ : Store)
    (b : MemBlockchain) : Store × Run MemBlockchain :=
  match b.MineNewBlock E now fuel σ with
  | (σ, Run.done block) =>
    let b := { b with TransactionPool := TxSlice.empty }
    (σ, Run.done { b with Blocks := b.Blocks ++ [block] })
  | (σ, Run.panic) => (σ, Run.panic)
  | (σ, Run.outOfFuel) => (σ, Run.outOfFuel)

/-- A slice header that fits the store: the length is within the capacity, and a
header with capacity names an allocated array of that many elements. -/
def Store.fits (σ : Store) (s : TxSlice) : Prop :=
  s.len ≤ s.cap ∧ (s.cap ≠ 0 → s.array < σ.length ∧ (σ.getD s.array []).length = s.cap)

/-! ## A run with the Go standard library in which a block shares the array of the pool

`Target = 1`, SHA-512 and `encoding/json`. -/

/-- The genesis block of `NewBlockchain` at `Target = 1` with SHA-512: 13514 is the
first nonce from 13466 at which the hash of the block starts with `0`. -/
def goGenesisBlock : Block := ⟨13514, [demoGenesis], zeroHash, Time.zero⟩

/-- The SHA-512 hash string of `goGenesisBlock`. -/
def goGenesisHash : GoString :=
  str ("053eee08d2dbc3065c0b2feb94d3854ae2c8a22c1e76d657b53a19dd1cb75c93"
    ++ "7ba09939a19991519eadb28901afc489a814d8dbee43db38e9498d93c506bfb8")

/-- The instant `2024-01-01T00:00:00Z` plus `ns` nanoseconds. -/
def at2024 (ns : Int) : Time := ⟨63839664000000000000 + ns⟩

/-- Pool transaction 1. -/
def aliasT1 : Transaction := ⟨str "bob", str "alice", str "hi", some [], at2024 1000000000⟩

/-- Pool transaction 2. -/
def aliasT2 : Transaction := ⟨str "carol", str "bob", str "thanks", some [], at2024 2000000000⟩

/-- Pool transaction 3. -/
def aliasT3 : Transaction := ⟨str "dave", str "carol", str "ok", some [], at2024 3000000000⟩

/-- The transaction added after the block is committed. -/
def aliasT4 : Transaction := ⟨str "erin", str "dave", str "later", some [], at2024 20000000000⟩

/-- A chain as `NewBlockchain` lays it out: the genesis block reads the one-element
array of `[]Transaction{t}`, the pool is `[]Transaction{}`. -/
def aliasStart : Store × MemBlockchain :=
  ([[demoGenesis]],
    ⟨[⟨13514, ⟨0, 1, 1⟩, zeroHash, Time.zero⟩], TxSlice.empty, str "0123456789abcdef", [],
      at2024 0⟩)

/-- The store, the chain and the last error after `AddTransaction(aliasT1)`,
`AddTransaction(aliasT2)`, `AddTransaction(aliasT3)` on `aliasStart`. -/
def aliasPool3 : Store × MemBlockchain × Option Err :=
  let r1 := aliasStart.2.AddTransaction aliasStart.1 aliasT1
  let r2 := r1.2.1.AddTransaction r1.1 aliasT2
  r2.2.1.AddTransaction r2.1 aliasT3

/-- The clock during `MineNewBlock`: 10 s after the start of 2024 when the block is
stamped, 8 ns later when the reward transaction is created. -/
def aliasClock (k : Nat) : Time := if k = 0 then at2024 10000000000 else at2024 10000000008

/-- The reward transaction of that call. -/
def aliasReward : Transaction :=
  ⟨str "0123456789abcdef", str "root", str "MINED", some [], at2024 10000000008⟩

/-- The store after the three `AddTransaction`: the array of the genesis block, the
arrays of capacity 1 and 2 the pool has outgrown, and the array of capacity 4 that
holds the pool, with one spare element. -/
def aliasStore3 : Store :=
  [[demoGenesis], [aliasT1], [aliasT1, aliasT2], [aliasT1, aliasT2, aliasT3, Transaction.zero]]

/-- The chain after the three `AddTransaction`: the pool is elements 0 to 2 of array 3,
whose capacity is 4. -/
def aliasChain3 : MemBlockchain :=
  ⟨[⟨13514, ⟨0, 1, 1⟩, zeroHash, Time.zero⟩], ⟨3, 3, 4⟩, str "0123456789abcdef", [],
    at2024 0⟩

/-- The block `MineNewBlock` returns in that state: its transactions are elements 0
to 3 of array 3. -/
def aliasMemBlock : MemBlock := ⟨0, ⟨3, 4, 4⟩, goGenesisHash, at2024 10000000000⟩

/-- The store after `MineNewBlock`: the reward transaction has been written into the
spare element of array 3. -/
def aliasStore : Store :=
  [[demoGenesis], [aliasT1], [aliasT1, aliasT2], [aliasT1, aliasT2, aliasT3, aliasReward]]

/-- The chain after `AddBlock` of that block: the pool is elements 0 to 2 of array 3
(capacity 4), the transactions of the second block are elements 0 to 3 of the same
array. -/
def aliasChain : MemBlockchain :=
  ⟨[⟨13514, ⟨0, 1, 1⟩, zeroHash, Time.zero⟩, aliasMemBlock],
    ⟨3, 3, 4⟩, str "0123456789abcdef", [], at2024 0⟩

/-- The second block of `aliasChain` as `MineNewBlock` returned it and `AddBlock`
validated it. -/
def aliasBlock : Block :=
  ⟨0, [aliasT1, aliasT2, aliasT3, aliasReward], goGenesisHash, at2024 10000000000⟩

/-- The SHA-512 hash string of `aliasBlock`. -/
def aliasBlockHash : GoString :=
  str ("010f6b2bf19827c85561de5fef1962abd88d1ca7de5f7eb388ac2f61cf0f811c"
    ++ "fa5c28e6d807974397a021def70fab6e5944ba8c9fe9e1f822f912b46e71d756")

/-- The result of `AddTransaction(aliasT4)` in the state `aliasStore`, `aliasChain`. -/
def aliasAdded : Store × MemBlockchain × Option Err :=
  aliasChain.AddTransaction aliasStore aliasT4

/-- The result of `ResolveTransactions([aliasT4])` in the same state. -/
def aliasResolved : Store × MemBlockchain × Bool :=
  aliasChain.ResolveTransactions (goEnv 1) aliasStore [aliasT4]

/-- The second block as the chain reads it after either call: `aliasT4` stands where
the reward transaction was. -/
def aliasOverwritten : Block :=
  ⟨0, [aliasT1, aliasT2, aliasT3, aliasT4], goGenesisHash, at2024 10000000000⟩

/-- The clock during `MineNewBlockAndApply`: 30 s after the start of 2024 when the
block is stamped, 16 ns later when the reward transaction is created. -/
def applyClock (k : Nat) : Time := if k = 0 then at2024 30000000000 else at2024 30000000016

/-- The reward transaction of that call. -/
def applyReward : Transaction :=
  ⟨str "0123456789abcdef", str "root", str "MINED", some [], at2024 30000000016⟩

/-- The store after `MineNewBlockAndApply` in the state `aliasStore`, `aliasChain`: the
new reward has been written over the old one in array 3. -/
def appliedStore : Store :=
  [[demoGenesis], [aliasT1], [aliasT1, aliasT2], [aliasT1, aliasT2, aliasT3, applyReward]]

/-- The chain after `MineNewBlockAndApply`: the second and the third block both read
elements 0 to 3 of array 3. -/
def appliedChain : MemBlockchain :=
  ⟨[⟨13514, ⟨0, 1, 1⟩, zeroHash, Time.zero⟩,
      aliasMemBlock, ⟨0, ⟨3, 4, 4⟩, aliasBlockHash, at2024 30000000000⟩],
    TxSlice.empty, str "0123456789abcdef", [], at2024 0⟩

/-- The second block as the chain reads it after `MineNewBlockAndApply`: the reward
of the new block stands where its own reward was. -/
def aliasRewritten : Block :=
  ⟨0, [aliasT1, aliasT2, aliasT3, applyReward], goGenesisHash, at2024 10000000000⟩

/-- The block `MineNewBlockAndApply` appends. -/
def appliedBlock : Block :=
  ⟨0, [aliasT1, aliasT2, aliasT3, applyReward], aliasBlockHash, at2024 30000000000⟩

/-- The store after `AddTransaction(aliasT4)`, and after `ResolveTransactions([aliasT4])`:
`aliasT4` is element 3 of array 3. -/
def aliasStore4 : Store :=
  [[demoGenesis], [aliasT1], [aliasT1, aliasT2], [aliasT1, aliasT2, aliasT3, aliasT4]]

/-- The chain after either call: the pool is all four elements of array 3. -/
def aliasChain4 : MemBlockchain :=
  ⟨[⟨13514, ⟨0, 1, 1⟩, zeroHash, Time.zero⟩, aliasMemBlock],
    ⟨3, 4, 4⟩, str "0123456789abcdef", [], at2024 0⟩

/-- The calls that lead to the state `aliasStore`, `aliasChain`: three
`AddTransaction` on a chain fresh from `NewBlockchain`, then `blk := MineNewBlock()`
(the first candidate is valid, so the call returns whatever the fuel bound) and
`AddBlock(blk)`, all without an error. -/
def aliasReached : Prop :=
  aliasPool3 = (aliasStore3, aliasChain3, none) ∧
  (∀ fuel, aliasChain3.MineNewBlock (goEnv 1) aliasClock fuel aliasStore3
    = (aliasStore, Run.done aliasMemBlock)) ∧
  aliasChain3.AddBlock (goEnv 1) aliasStore aliasMemBlock = (aliasChain, none)

/-! ## Properties -/

theorem transactionsLoop_iff (ts : List Transaction) :
    transactionsLoop ts = true ↔ ∀ t ∈ ts, t.IsValid = true := by
  induction ts with
  | nil => simp [transactionsLoop]
  | cons t rest ih =>
    by_cases h : t.IsValid = true <;> simp [transactionsLoop, h, ih]

theorem str_zero : str "0" = [0x30] := by decide

theorem Repeat_zero (n : Nat) : strings.Repeat (str "0") n = List.replicate n 0x30 := by
  rw [str_zero]
  induction n with
  | zero => rfl
  | succ k ih =>
    simp only [strings.Repeat] at ih
    simp [strings.Repeat, List.replicate_succ, ih]

theorem HasPrefix_iff (s p : GoString) :
    strings.HasPrefix s p = true ↔ ∃ rest, s = p ++ rest := by
  unfold strings.HasPrefix
  constructor
  · intro h
    simp only [Bool.and_eq_true, decide_eq_true_eq, beq_iff_eq] at h
    refine ⟨s.drop p.length, ?_⟩
    conv_lhs => rw [← List.take_append_drop p.length s]
    rw [h.2]
  · rintro ⟨rest, rfl⟩
    simp

/-- C1. `Block.IsValid` holds exactly when every transaction of the block is valid,
the previous hash has 128 bytes and the block hash starts with `Target` characters
`0` (byte `0x30`). -/
theorem Block_IsValid_iff (E : Env) (b : Block) :
    b.IsValid E = true ↔
      (∀ t ∈ b.Transactions, t.IsValid = true) ∧ b.PreviousHash.length = 128 ∧
        ∃ rest, b.Hash E = List.replicate E.Target 0x30 ++ rest := by
  unfold Block.IsValid
  rw [← transactionsLoop_iff, ← Repeat_zero, ← HasPrefix_iff]
  by_cases h1 : transactionsLoop b.Transactions = true <;>
  by_cases h2 : b.PreviousHash.length = 128 <;>
  by_cases h3 : strings.HasPrefix (b.Hash E) (strings.Repeat (str "0") E.Target) = true <;>
  simp [h1, h2, h3, HashStringSize, sha512Size]

theorem Repeat_zeroHash : strings.Repeat (str "0") HashStringSize = zeroHash :=
  Repeat_zero _

theorem blocksLoop_cons (E : Env) (blocks : List Block) (i : Nat) (block : Block)
    (rest : List Block) :
    blocksLoop E blocks i (block :: rest) =
      (if !block.IsValid E then false
      else if i == 0 then
        if block.PreviousHash != strings.Repeat (str "0") HashStringSize then false
        else blocksLoop E blocks (i + 1) rest
      else
        match blocks[i - 1]? with
        | none => false
        | some prev =>
          if block.PreviousHash != prev.Hash E then false
          else blocksLoop E blocks (i + 1) rest) := by
  rw [blocksLoop]

theorem blocksLoop_iff (E : Env) (blocks : List Block) (rest : List Block) :
    ∀ i, blocks.drop i = rest →
      (blocksLoop E blocks i rest = true ↔
        ∀ j cur, i ≤ j → blocks[j]? = some cur → linkOk E blocks j cur) := by
  induction rest with
  | nil =>
    intro i hdrop
    have hlen : blocks.length ≤ i := List.drop_eq_nil_iff.mp hdrop
    simp only [blocksLoop, true_iff]
    intro j cur hij hj
    have : blocks[j]? = none := List.getElem?_eq_none (by omega)
    rw [this] at hj
    cases hj
  | cons block rest ih =>
    intro i hdrop
    have hi : blocks[i]? = some block := by
      have := congrArg List.head? hdrop
      simpa [List.head?_drop] using this
    have hdrop' : blocks.drop (i + 1) = rest := by
      have := congrArg List.tail hdrop
      simpa [List.tail_drop] using this
    have hilt : i < blocks.length := by
      rcases List.getElem?_eq_some_iff.mp hi with ⟨h, _⟩
      exact h
    have key : (∀ j cur, i ≤ j → blocks[j]? = some cur → linkOk E blocks j cur) ↔
        linkOk E blocks i block ∧
          ∀ j cur, i + 1 ≤ j → blocks[j]? = some cur → linkOk E blocks j cur := by
      constructor
      · intro h
        exact ⟨h i block (le_refl _) hi, fun j cur hj hc => h j cur (by omega) hc⟩
      · rintro ⟨h0, h1⟩ j cur hij hc
        rcases Nat.eq_or_lt_of_le hij with heq | hlt
        · subst heq
          rw [hi] at hc
          cases hc
          exact h0
        · exact h1 j cur hlt hc
    rw [key, ← ih (i + 1) hdrop', blocksLoop_cons]
    by_cases hv : block.IsValid E = true
    · by_cases h0 : i = 0
      · subst h0
        by_cases hp : block.PreviousHash = strings.Repeat (str "0") HashStringSize
        · have hp' := hp
          rw [Repeat_zeroHash] at hp'
          simp [hv, hp, linkOk, ← hp']
        · have hp' := hp
          rw [Repeat_zeroHash] at hp'
          simp [hv, hp, linkOk, hp']
      · have hprev : ∃ prev, blocks[i - 1]? = some prev := by
          have : i - 1 < blocks.length := by omega
          exact ⟨blocks[i - 1], List.getElem?_eq_getElem this⟩
        obtain ⟨prev, hprev⟩ := hprev
        by_cases hp : block.PreviousHash = prev.Hash E
        · simp [hv, h0, hprev, hp, linkOk]
        · simp [hv, h0, hprev, hp, linkOk, Nat.pos_of_ne_zero h0]
    · simp [hv, linkOk]

theorem Blockchain_IsValid_char (E : Env) (c : Blockchain) :
    c.IsValid E = true ↔
      (∀ j cur, c.Blocks[j]? = some cur → linkOk E c.Blocks j cur) ∧
        (∀ t ∈ c.TransactionPool, t.IsValid = true) ∧ c.ChainID.length = E.IDLength := by
  have hb := blocksLoop_iff E c.Blocks c.Blocks 0 rfl
  have hb' : blocksLoop E c.Blocks 0 c.Blocks = true ↔
      ∀ j cur, c.Blocks[j]? = some cur → linkOk E c.Blocks j cur := by
    rw [hb]
    exact ⟨fun h j cur hc => h j cur (Nat.zero_le _) hc, fun h j cur _ hc => h j cur hc⟩
  unfold Blockchain.IsValid
  rw [← hb', ← transactionsLoop_iff]
  by_cases h1 : blocksLoop E c.Blocks 0 c.Blocks = true <;>
  by_cases h2 : transactionsLoop c.TransactionPool = true <;>
  by_cases h3 : c.ChainID.length = E.IDLength <;>
  simp [h1, h2, h3]

theorem links_iff (E : Env) (blocks : List Block) :
    (∀ j cur, blocks[j]? = some cur → linkOk E blocks j cur) ↔
      (∀ b ∈ blocks, b.IsValid E = true) ∧
      (∀ h : 0 < blocks.length, (blocks[0]).PreviousHash = zeroHash) ∧
      (∀ i (hi : i < blocks.length), 0 < i →
        (blocks[i]).PreviousHash = (blocks[i - 1]).Hash E) := by
  constructor
  · intro h
    refine ⟨?_, ?_, ?_⟩
    · intro b hb
      obtain ⟨j, hj, rfl⟩ := List.getElem_of_mem hb
      exact (h j _ (List.getElem?_eq_getElem hj)).1
    · intro h0
      exact (h 0 _ (List.getElem?_eq_getElem h0)).2.1 rfl
    · intro i hi hpos
      have hi' : i - 1 < blocks.length := by omega
      exact (h i _ (List.getElem?_eq_getElem hi)).2.2 _ hpos (List.getElem?_eq_getElem hi')
  · rintro ⟨hv, h0, hl⟩ j cur hc
    obtain ⟨hj, rfl⟩ := List.getElem?_eq_some_iff.mp hc
    refine ⟨hv _ (List.getElem_mem hj), ?_, ?_⟩
    · intro hj0
      subst hj0
      exact h0 hj
    · intro prev hpos hprev
      obtain ⟨hj', rfl⟩ := List.getElem?_eq_some_iff.mp hprev
      exact hl j hj hpos

/-- C2. `Blockchain.IsValid` holds exactly when every block is individually valid,
the first block (if any) has the all-zero previous hash of 128 characters, every
later block carries the hash of its predecessor, every pool transaction is valid and
the chain identifier has length `IDLength`. -/
theorem Blockchain_IsValid_iff (E : Env) (c : Blockchain) :
    c.IsValid E = true ↔
      (∀ b ∈ c.Blocks, b.IsValid E = true) ∧
      (∀ h : 0 < c.Blocks.length, (c.Blocks[0]).PreviousHash = List.replicate 128 0x30) ∧
      (∀ i (hi : i < c.Blocks.length), 0 < i →
        (c.Blocks[i]).PreviousHash = (c.Blocks[i - 1]).Hash E) ∧
      (∀ t ∈ c.TransactionPool, t.IsValid = true) ∧
      c.ChainID.length = E.IDLength := by
  rw [Blockchain_IsValid_char, links_iff]
  simp only [and_assoc]
  rfl

/-- C3. `ResolveChain` returns true and installs the other chain's blocks exactly
when the other chain is longer and valid; otherwise it returns false and keeps the
blocks; pool, identifier and peers are kept in both cases. -/
theorem ResolveChain_spec (E : Env) (a b : Blockchain) :
    (((a.ResolveChain E b).2 = true ∧ (a.ResolveChain E b).1.Blocks = b.Blocks) ↔
      (b.Blocks.length > a.Blocks.length ∧ b.IsValid E = true)) ∧
    (¬ (b.Blocks.length > a.Blocks.length ∧ b.IsValid E = true) →
      (a.ResolveChain E b).2 = false ∧ (a.ResolveChain E b).1.Blocks = a.Blocks) ∧
    (a.ResolveChain E b).1.TransactionPool = a.TransactionPool ∧
    (a.ResolveChain E b).1.ChainID = a.ChainID ∧
    (a.ResolveChain E b).1.Peers = a.Peers := by
  unfold Blockchain.ResolveChain
  by_cases h1 : b.Blocks.length > a.Blocks.length <;>
  by_cases h2 : b.IsValid E = true <;>
  simp [h1, h2]

/-- C8. `AddBlock` succeeds exactly when the block is individually valid, whatever
its previous hash; on success the block is appended and nothing else changes, on
failure the error is `ErrInvalidData` and the chain is unchanged. -/
theorem AddBlock_spec (E : Env) (c : Blockchain) (blk : Block) :
    ((c.AddBlock E blk).2 = none ↔ blk.IsValid E = true) ∧
    (blk.IsValid E = true →
      (c.AddBlock E blk).1 = { c with Blocks := c.Blocks ++ [blk] }) ∧
    (¬ blk.IsValid E = true →
      (c.AddBlock E blk).2 = some Err.ErrInvalidData ∧ (c.AddBlock E blk).1 = c) := by
  unfold Blockchain.AddBlock
  by_cases h : blk.IsValid E = true <;> simp [h]

/-- C7. `NewTransaction` reports `ErrInvalidData` exactly when one of recipient,
sender, message is empty after `strings.TrimSpace`; otherwise it returns the
transaction with these three fields, empty data and the given timestamp, without
error, and that transaction is valid. -/
theorem NewTransaction_spec (r s m : GoString) (ts : Time) :
    ((NewTransaction r s m ts).2 = some Err.ErrInvalidData ↔
      (strings.TrimSpace r = [] ∨ strings.TrimSpace s = [] ∨ strings.TrimSpace m = [])) ∧
    (¬ (strings.TrimSpace r = [] ∨ strings.TrimSpace s = [] ∨ strings.TrimSpace m = []) →
      NewTransaction r s m ts = (⟨r, s, m, some [], ts⟩, none) ∧
      (NewTransaction r s m ts).1.IsValid = true) := by
  unfold NewTransaction Transaction.IsValid
  by_cases h1 : strings.TrimSpace r = [] <;>
  by_cases h2 : strings.TrimSpace s = [] <;>
  by_cases h3 : strings.TrimSpace m = [] <;>
  simp [h1, h2, h3]

theorem containsLoop_iff (E : Env) (h : GoString) (pool : List Transaction) :
    containsLoop E h pool = true ↔ h ∈ pool.map (fingerprint E) := by
  induction pool with
  | nil => simp [containsLoop]
  | cons t rest ih =>
    by_cases hh : h = hash512String E (t.JSONString E)
    · simp [containsLoop, fingerprint, hh]
    · simp [containsLoop, fingerprint, hh, ih]

theorem novelAfter_nil (E : Env) (seen : List GoString) : novelAfter E seen [] = [] := by
  simp [novelAfter]

theorem novelAfter_cons (E : Env) (seen : List GoString) (t : Transaction)
    (rest : List Transaction) :
    novelAfter E seen (t :: rest) =
      (if fingerprint E t ∈ seen then [] else [t])
        ++ novelAfter E (seen ++ [fingerprint E t]) rest := by
  simp only [novelAfter, List.length_cons, List.range_succ_eq_map, List.flatMap_cons,
    List.flatMap_map]
  congr 1
  · simp
  · apply List.flatMap_congr
    intro i _
    simp [Function.comp, List.append_assoc]

theorem novelAfter_congr (E : Env) (s1 s2 : List GoString) (ts : List Transaction)
    (h : ∀ x, x ∈ s1 ↔ x ∈ s2) : novelAfter E s1 ts = novelAfter E s2 ts := by
  unfold novelAfter
  apply List.flatMap_congr
  intro i _
  cases hti : ts[i]? with
  | none => rfl
  | some t =>
    simp only [List.mem_append, h]

theorem resolveLoop_valid (E : Env) (ts : List Transaction) :
    ∀ (b : Blockchain) (tAdded : Bool), (∀ t ∈ ts, t.IsValid = true) →
      resolveLoop E ts b tAdded =
        ({ b with TransactionPool :=
            b.TransactionPool ++ novelCandidates E b.TransactionPool ts },
          tAdded || !(novelCandidates E b.TransactionPool ts).isEmpty) := by
  induction ts with
  | nil =>
    intro b tAdded _
    simp [resolveLoop, novelCandidates, novelAfter_nil]
  | cons t rest ih =>
    intro b tAdded hts
    have ht : t.IsValid = true := hts t (List.mem_cons_self _ _)
    have hrest : ∀ x ∈ rest, x.IsValid = true := fun x hx => hts x (List.mem_cons_of_mem _ hx)
    by_cases hc : fingerprint E t ∈ b.TransactionPool.map (fingerprint E)
    · have hcl : containsLoop E (hash512String E (t.JSONString E)) b.TransactionPool = true :=
        (containsLoop_iff E _ _).mpr hc
      have hcongr : novelAfter E (b.TransactionPool.map (fingerprint E) ++ [fingerprint E t]) rest
          = novelAfter E (b.TransactionPool.map (fingerprint E)) rest := by
        apply novelAfter_congr
        intro x
        constructor
        · intro hx
          rcases List.mem_append.mp hx with h1 | h1
          · exact h1
          · rw [List.mem_singleton.mp h1]; exact hc
        · intro hx
          exact List.mem_append_left _ hx
      rw [resolveLoop]
      simp only [ht, hcl, Bool.not_true, Bool.false_eq_true, if_false]
      rw [ih b tAdded hrest]
      simp only [novelCandidates, novelAfter_cons, hc, if_true, List.nil_append, hcongr]
    · have hcl : containsLoop E (hash512String E (t.JSONString E)) b.TransactionPool = false := by
        rw [← Bool.not_eq_true]
        exact fun h => hc ((containsLoop_iff E _ _).mp h)
      rw [resolveLoop]
      simp only [ht, hcl, Bool.not_true, Bool.not_false, Bool.false_eq_true, if_false, if_true]
      rw [ih _ true hrest]
      simp [novelCandidates, novelAfter_cons, hc, List.map_append]

theorem demoBob_valid : demoBob.IsValid = true := by decide

theorem zero_invalid : Transaction.zero.IsValid = false := by decide

/-- C4 (evaluation at the failing input). On a chain with an empty pool, the
candidates `[demoBob, Transaction{}]` (the second is invalid) make
`ResolveTransactions` return false, yet the first candidate stays in the pool. -/
theorem ResolveTransactions_keeps_earlier (E : Env) :
    Blockchain.ResolveTransactions E ⟨[], [], [], [], Time.zero⟩ [demoBob, Transaction.zero]
      = (⟨[], [demoBob], [], [], Time.zero⟩, false) := by
  simp [Blockchain.ResolveTransactions, resolveLoop, containsLoop, demoBob_valid, zero_invalid]

/-- C5. When every candidate is valid, the pool after `ResolveTransactions` is the
old pool followed, in candidate order, by the candidates whose fingerprint is
neither that of an old pool entry nor that of an earlier candidate; the result is
true exactly when such a candidate exists, that is, exactly when the pool grew. -/
theorem ResolveTransactions_valid (E : Env) (c : Blockchain) (ts : List Transaction)
    (hts : ∀ t ∈ ts, t.IsValid = true) :
    (c.ResolveTransactions E ts).1.TransactionPool
        = c.TransactionPool ++ novelCandidates E c.TransactionPool ts ∧
    ((c.ResolveTransactions E ts).2 = true ↔ novelCandidates E c.TransactionPool ts ≠ []) ∧
    ((c.ResolveTransactions E ts).2 = true ↔
      c.TransactionPool.length < (c.ResolveTransactions E ts).1.TransactionPool.length) := by
  unfold Blockchain.ResolveTransactions
  rw [resolveLoop_valid E ts c false hts]
  cases h : novelCandidates E c.TransactionPool ts <;> simp

/-- Witness for C5: candidates `[demoBob, demoCarol, demoCarol]` against the pool
`[demoBob]`; only the first `demoCarol` is new. -/
theorem ResolveTransactions_valid_witness :
    (∀ t ∈ [demoBob, demoCarol, demoCarol], t.IsValid = true) ∧
    novelCandidates demoEnv demoChain.TransactionPool [demoBob, demoCarol, demoCarol]
      = [demoCarol] ∧
    ((demoChain.ResolveTransactions demoEnv [demoBob, demoCarol, demoCarol]).1.TransactionPool
        = demoChain.TransactionPool
          ++ novelCandidates demoEnv demoChain.TransactionPool [demoBob, demoCarol, demoCarol] ∧
    ((demoChain.ResolveTransactions demoEnv [demoBob, demoCarol, demoCarol]).2 = true ↔
      novelCandidates demoEnv demoChain.TransactionPool [demoBob, demoCarol, demoCarol] ≠ []) ∧
    ((demoChain.ResolveTransactions demoEnv [demoBob, demoCarol, demoCarol]).2 = true ↔
      demoChain.TransactionPool.length <
        (demoChain.ResolveTransactions demoEnv
          [demoBob, demoCarol, demoCarol]).1.TransactionPool.length)) :=
  ⟨by decide, by decide,
    ResolveTransactions_valid demoEnv demoChain [demoBob, demoCarol, demoCarol] (by decide)⟩

theorem resolveLoop_nodup (E : Env) (ts : List Transaction) :
    ∀ (b : Blockchain) (tAdded : Bool), (b.TransactionPool.map (fingerprint E)).Nodup →
      ((resolveLoop E ts b tAdded).1.TransactionPool.map (fingerprint E)).Nodup := by
  induction ts with
  | nil =>
    intro b tAdded h
    simpa [resolveLoop] using h
  | cons t rest ih =>
    intro b tAdded h
    rw [resolveLoop]
    by_cases ht : t.IsValid = true
    · by_cases hc : containsLoop E (hash512String E (t.JSONString E)) b.TransactionPool = true
      · simp only [ht, hc, Bool.not_true, Bool.false_eq_true, if_false]
        exact ih b tAdded h
      · have hnot : fingerprint E t ∉ b.TransactionPool.map (fingerprint E) :=
          fun hm => hc ((containsLoop_iff E _ _).mpr hm)
        simp only [ht, hc, Bool.not_true, Bool.false_eq_true, if_false]
        simp only [Bool.not_eq_true] at hc
        simp only [hc, Bool.not_false, if_true]
        apply ih
        simp only [List.map_append, List.map_cons, List.map_nil]
        rw [List.nodup_append]
        refine ⟨h, List.nodup_singleton _, ?_⟩
        intro x hx hx'
        rw [List.mem_singleton.mp hx'] at hx
        exact hnot hx
    · simp only [Bool.not_eq_true] at ht
      simpa [ht] using h

/-- C6. A valid transaction whose fingerprint is not yet in the pool, submitted twice
through `ResolveTransactions` (in one call as `[t, t]`, or in two calls with `[t]`),
leaves exactly one pool entry with that fingerprint; and for every candidate list,
pairwise distinct pool fingerprints before the call stay pairwise distinct after it. -/
theorem ResolveTransactions_dedup (E : Env) (c : Blockchain) :
    (∀ t : Transaction, t.IsValid = true →
      fingerprint E t ∉ c.TransactionPool.map (fingerprint E) →
      ((c.ResolveTransactions E [t, t]).1.TransactionPool.map (fingerprint E)).count
          (fingerprint E t) = 1 ∧
      (((c.ResolveTransactions E [t]).1.ResolveTransactions E [t]).1.TransactionPool.map
          (fingerprint E)).count (fingerprint E t) = 1) ∧
    (∀ ts : List Transaction, (c.TransactionPool.map (fingerprint E)).Nodup →
      ((c.ResolveTransactions E ts).1.TransactionPool.map (fingerprint E)).Nodup) := by
  refine ⟨?_, fun ts h => resolveLoop_nodup E ts c false h⟩
  intro t ht hnew
  have h0 : containsLoop E (hash512String E (t.JSONString E)) c.TransactionPool = false := by
    rw [← Bool.not_eq_true]
    exact fun h => hnew ((containsLoop_iff E _ _).mp h)
  have h1 : containsLoop E (hash512String E (t.JSONString E)) (c.TransactionPool ++ [t])
      = true := by
    rw [containsLoop_iff]
    simp [fingerprint]
  have hcount : ((c.TransactionPool ++ [t]).map (fingerprint E)).count (fingerprint E t) = 1 := by
    simp [List.count_append, List.count_eq_zero_of_not_mem hnew]
  constructor
  · simpa [Blockchain.ResolveTransactions, resolveLoop, ht, h0, h1] using hcount
  · simpa [Blockchain.ResolveTransactions, resolveLoop, ht, h0, h1] using hcount

/-- Witness for C6: `demoCarol` is valid and new to the pool of `demoChain`, whose
fingerprints are pairwise distinct. -/
theorem ResolveTransactions_dedup_witness :
    demoCarol.IsValid = true ∧
    fingerprint demoEnv demoCarol ∉ demoChain.TransactionPool.map (fingerprint demoEnv) ∧
    (demoChain.TransactionPool.map (fingerprint demoEnv)).Nodup ∧
    ((demoChain.ResolveTransactions demoEnv [demoCarol, demoCarol]).1.TransactionPool.map
        (fingerprint demoEnv)).count (fingerprint demoEnv demoCarol) = 1 ∧
    ((demoChain.ResolveTransactions demoEnv [demoBob, demoCarol]).1.TransactionPool.map
        (fingerprint demoEnv)).Nodup :=
  ⟨by decide, by decide, by decide,
    ((ResolveTransactions_dedup demoEnv demoChain).1 demoCarol (by decide) (by decide)).1,
    (ResolveTransactions_dedup demoEnv demoChain).2 [demoBob, demoCarol] (by decide)⟩

theorem Block_valid_transactions (E : Env) (b : Block) (h : b.IsValid E = true) :
    ∀ t ∈ b.Transactions, t.IsValid = true := by
  rw [← transactionsLoop_iff]
  unfold Block.IsValid at h
  by_cases h1 : transactionsLoop b.Transactions = true
  · exact h1
  · simp [h1] at h

theorem mineLoop_done (E : Env) (now : Nat → Time) (pool : List Transaction)
    (rw : Transaction) (blk : Block) :
    ∀ (fuel k : Nat) (block : Block),
      mineLoop E now pool rw fuel k block = Run.done blk →
      blk.IsValid E = true ∧ blk.PreviousHash = block.PreviousHash ∧
        (blk.Transactions = block.Transactions ∨ blk.Transactions = pool ++ [rw]) := by
  intro fuel
  induction fuel with
  | zero =>
    intro k block h
    rw [mineLoop] at h
    by_cases hv : block.IsValid E = true
    · simp only [hv, if_true, Run.done.injEq] at h
      subst h
      exact ⟨hv, rfl, Or.inl rfl⟩
    · simp [hv] at h
  | succ n ih =>
    intro k block h
    rw [mineLoop] at h
    by_cases hv : block.IsValid E = true
    · simp only [hv, if_true, Run.done.injEq] at h
      subst h
      exact ⟨hv, rfl, Or.inl rfl⟩
    · simp only [hv, Bool.false_eq_true, if_false] at h
      obtain ⟨h1, h2, h3⟩ := ih _ _ h
      refine ⟨h1, h2, Or.inr ?_⟩
      rcases h3 with h3 | h3 <;> exact h3

theorem NewTransaction_cases (r s m : GoString) (ts : Time) :
    (NewTransaction r s m ts).1 = Transaction.zero ∨
      (NewTransaction r s m ts).1 = ⟨r, s, m, some [], ts⟩ := by
  unfold NewTransaction
  by_cases h : (⟨r, s, m, some [], ts⟩ : Transaction).IsValid = true
  · right; simp [h]
  · left; simp [h]

theorem MineNewBlock_done (E : Env) (now : Nat → Time) (fuel : Nat) (c : Blockchain)
    (blk : Block) (h : c.MineNewBlock E now fuel = Run.done blk) :
    ∃ last, c.LastBlock = some last ∧ blk.PreviousHash = last.Hash E ∧
      blk.IsValid E = true ∧
      blk.Transactions =
        c.TransactionPool ++ [⟨c.ChainID, str "root", str "MINED", some [], now 1⟩] := by
  unfold Blockchain.MineNewBlock at h
  cases hl : c.LastBlock with
  | none => simp [hl] at h
  | some last =>
    simp only [hl] at h
    obtain ⟨h1, h2, h3⟩ := mineLoop_done E now _ _ blk _ _ _ h
    have h3' : blk.Transactions = c.TransactionPool
        ++ [(NewTransactionNow (now 1) c.ChainID (str "root") (str "MINED")).1] := by
      rcases h3 with h3 | h3 <;> exact h3
    refine ⟨last, rfl, h2, h1, ?_⟩
    have hrw : (NewTransactionNow (now 1) c.ChainID (str "root") (str "MINED")).1.IsValid
        = true :=
      Block_valid_transactions E blk h1 _ (by rw [h3']; simp)
    rcases NewTransaction_cases c.ChainID (str "root") (str "MINED") (now 1) with hz | hz
    · unfold NewTransactionNow at hrw
      rw [hz] at hrw
      exact absurd hrw (by decide)
    · rw [h3']
      unfold NewTransactionNow
      rw [hz]

/-- C9 (amended). Whenever `MineNewBlock` returns a block, its transactions are the
pool, in order, followed by one reward transaction whose Recipient is the chain
identifier, whose Sender is `root` and whose Message is `MINED`. -/
theorem MineNewBlock_reward (E : Env) (now : Nat → Time) (fuel : Nat) (c : Blockchain)
    (blk : Block) (h : c.MineNewBlock E now fuel = Run.done blk) :
    ∃ rw : Transaction, blk.Transactions = c.TransactionPool ++ [rw] ∧
      rw.Recipient = c.ChainID ∧ rw.Sender = str "root" ∧ rw.Message = str "MINED" := by
  obtain ⟨_, _, _, _, h4⟩ := MineNewBlock_done E now fuel c blk h
  exact ⟨_, h4, rfl, rfl, rfl⟩

set_option maxRecDepth 100000 in
/-- Witness for C9: on `demoChain` under `demoEnv` the search returns after three
rounds. -/
theorem MineNewBlock_reward_witness :
    demoChain.MineNewBlock demoEnv demoClock 3 = Run.done demoMined ∧
    ∃ rw : Transaction, demoMined.Transactions = demoChain.TransactionPool ++ [rw] ∧
      rw.Recipient = demoChain.ChainID ∧ rw.Sender = str "root" ∧ rw.Message = str "MINED" :=
  ⟨by decide!,
    MineNewBlock_reward demoEnv demoClock 3 demoChain demoMined (by decide!)⟩

set_option maxRecDepth 100000 in
/-- C9 (counterexample). With `Target = 0` the search on `demoChain` returns at once;
the last transaction of the returned block has Sender `root`, not the chain
identifier, and Recipient the chain identifier, not `root`. -/
theorem MineNewBlock_reward_sender_counterexample :
    demoChain.Blocks ≠ [] ∧
    demoChain.MineNewBlock demoEnv0 demoClock 0 = Run.done demoMined0 ∧
    demoMined0.Transactions = demoChain.TransactionPool ++ [demoReward] ∧
    ¬ (demoReward.Sender = demoChain.ChainID ∧ demoReward.Recipient = str "root" ∧
        demoReward.Message = str "MINED") := by
  refine ⟨by decide, by decide, by decide, by decide⟩

theorem LastBlock_eq_getLast (c : Blockchain) (hne : c.Blocks ≠ []) :
    c.LastBlock = some (c.Blocks.getLast hne) := by
  unfold Blockchain.LastBlock
  rw [← List.getLast?_eq_getElem?, List.getLast?_eq_getLast _ hne]

theorem EncodeToString_length (src : List UInt8) :
    (EncodeToString src).length = 2 * src.length := by
  unfold EncodeToString
  induction src with
  | nil => rfl
  | cons v rest ih =>
    simp only [List.flatMap_cons, List.length_append, List.length_cons, List.length_nil, ih]
    omega

theorem hash512String_length (E : Env) (bs : List UInt8) :
    (hash512String E bs).length = 128 := by
  unfold hash512String
  simp only [EncodeToString_length, (E.Sum512 bs).2, sha512Size]

/-- C11 (evaluation at the failing input). With `Target = 129`, more characters than a
hash string has, the proof-of-work check of the block built inside `NewEmptyBlock`
fails for every digest and serialisation, and `NewEmptyBlock` returns the zero value
`Block{}`: its previous hash is the empty string, not 128 characters `0`. -/
theorem NewEmptyBlock_zero_value
    (S : List UInt8 → { d : List UInt8 // d.length = sha512Size })
    (mt : Transaction → Option GoString) (mb : Block → Option GoString) :
    NewEmptyBlock ⟨129, 16, S, mt, mb⟩ = Block.zero ∧
    (NewEmptyBlock ⟨129, 16, S, mt, mb⟩).PreviousHash = [] ∧
    (NewEmptyBlock ⟨129, 16, S, mt, mb⟩).PreviousHash ≠ List.replicate 128 0x30 := by
  have hp : ∀ b : Block, strings.HasPrefix (b.Hash ⟨129, 16, S, mt, mb⟩)
      (strings.Repeat (str "0") 129) = false := by
    intro b
    unfold strings.HasPrefix
    have hl : (b.Hash ⟨129, 16, S, mt, mb⟩).length = 128 := hash512String_length _ _
    simp [Repeat_zero, hl]
  have hz : NewEmptyBlock ⟨129, 16, S, mt, mb⟩ = Block.zero := by
    simp [NewEmptyBlock, NewBlock, Block.IsValid, hp]
  rw [hz]
  exact ⟨rfl, rfl, by decide⟩

theorem genesisLoop_done (E : Env) (blk : Block) :
    ∀ (fuel : Nat) (block : Block), genesisLoop E fuel block = Run.done blk →
      blk.IsValid E = true ∧ blk.Transactions = block.Transactions ∧
        blk.PreviousHash = block.PreviousHash ∧ blk.Timestamp = block.Timestamp ∧
        ∃ k, k ≤ fuel ∧ blk.Nonce = incInt^[k] block.Nonce ∧
          ∀ j, j < k → Block.IsValid E { block with Nonce := incInt^[j] block.Nonce } = false := by
  intro fuel
  induction fuel with
  | zero =>
    intro block h
    rw [genesisLoop] at h
    by_cases hv : block.IsValid E = true
    · simp only [hv, if_true, Run.done.injEq] at h
      subst h
      exact ⟨hv, rfl, rfl, rfl, 0, le_refl _, rfl, fun j hj => absurd hj (Nat.not_lt_zero _)⟩
    · simp [hv] at h
  | succ n ih =>
    intro block h
    rw [genesisLoop] at h
    by_cases hv : block.IsValid E = true
    · simp only [hv, if_true, Run.done.injEq] at h
      subst h
      exact ⟨hv, rfl, rfl, rfl, 0, Nat.zero_le _, rfl, fun j hj => absurd hj (Nat.not_lt_zero _)⟩
    · simp only [hv, Bool.false_eq_true, if_false] at h
      obtain ⟨h1, h2, h3, h4, k, hk, hn, hinv⟩ := ih _ h
      refine ⟨h1, h2, h3, h4, k + 1, by omega, ?_, ?_⟩
      · rw [hn, Function.iterate_succ_apply]
      · intro j hj
        cases j with
        | zero => simpa using hv
        | succ j =>
          have := hinv j (by omega)
          rw [Function.iterate_succ_apply]
          exact this

theorem NewBlockchain_done (E : Env) (timeString : Time → GoString) (now : Nat → Time)
    (fuel : Nat) (c : Blockchain) (h : NewBlockchain E timeString now fuel = Run.done c) :
    ∃ g : Block, genesisLoop E fuel
        ⟨13466, [⟨str "root", str "root", str "GENESIS", some [], Time.zero⟩],
          strings.Repeat (str "0") HashStringSize, Time.zero⟩ = Run.done g ∧
      E.IDLength ≤ 128 ∧
      c = ⟨[g], [], (hash512String E (timeString (now 0) ++ Itoa g.Nonce)).take E.IDLength,
        [], now 1⟩ := by
  unfold NewBlockchain at h
  simp only at h
  cases hg : genesisLoop E fuel
      ⟨13466, [⟨str "root", str "root", str "GENESIS", some [], Time.zero⟩],
        strings.Repeat (str "0") HashStringSize, Time.zero⟩ with
  | panic => simp [hg] at h
  | outOfFuel => simp [hg] at h
  | done g =>
    simp only [hg, hash512String_length] at h
    by_cases hid : E.IDLength ≤ 128
    · simp only [hid, if_true, Run.done.injEq] at h
      exact ⟨g, rfl, hid, h.symm⟩
    · simp [hid] at h

theorem IsValid_single (E : Env) (g : Block) (id : GoString) (t : Time)
    (hg : g.IsValid E = true) (hp : g.PreviousHash = zeroHash) :
    (Blockchain.IsValid E ⟨[g], [], id, [], t⟩ = true ↔ id.length = E.IDLength) := by
  rw [Blockchain_IsValid_char, links_iff]
  simp [hg, hp]

/-- C12. Whenever `NewBlockchain` returns, the chain has exactly one block, whose
previous hash is 128 characters `0` and whose only transaction is the genesis
transaction (Recipient `root`, Sender `root`, Message `GENESIS`); the pool is empty,
there are no peers, the identifier has length exactly `IDLength`, and the chain is
valid. (A return implies `IDLength <= 128`: the slice fails otherwise.) -/
theorem NewBlockchain_spec (E : Env) (timeString : Time → GoString) (now : Nat → Time)
    (fuel : Nat) (c : Blockchain) (h : NewBlockchain E timeString now fuel = Run.done c) :
    (∃ g : Block, c.Blocks = [g] ∧ g.PreviousHash = List.replicate 128 0x30 ∧
      ∃ t : Transaction, g.Transactions = [t] ∧ t.Recipient = str "root" ∧
        t.Sender = str "root" ∧ t.Message = str "GENESIS") ∧
    c.TransactionPool = [] ∧ c.Peers = [] ∧ c.ChainID.length = E.IDLength ∧
    E.IDLength ≤ 128 ∧ c.IsValid E = true := by
  obtain ⟨g, hg, hid, rfl⟩ := NewBlockchain_done E timeString now fuel c h
  obtain ⟨hv, htx, hph, _, _⟩ := genesisLoop_done E g fuel _ hg
  simp only at htx hph
  rw [Repeat_zeroHash] at hph
  have hlen : ((hash512String E (timeString (now 0) ++ Itoa g.Nonce)).take E.IDLength).length
      = E.IDLength := by
    rw [List.length_take, hash512String_length]
    omega
  refine ⟨⟨g, rfl, hph, _, htx, rfl, rfl, rfl⟩, rfl, rfl, hlen, hid, ?_⟩
  exact (IsValid_single E g _ _ hv hph).mpr hlen

theorem demoNewChain_run :
    NewBlockchain demoEnv demoTimeString demoClock 156 = Run.done demoNewChain := by
  decide!

/-- Witness for C12: under `demoEnv` the genesis search returns after 156 rounds. -/
theorem NewBlockchain_spec_witness :
    NewBlockchain demoEnv demoTimeString demoClock 156 = Run.done demoNewChain ∧
    ((∃ g : Block, demoNewChain.Blocks = [g] ∧ g.PreviousHash = List.replicate 128 0x30 ∧
      ∃ t : Transaction, g.Transactions = [t] ∧ t.Recipient = str "root" ∧
        t.Sender = str "root" ∧ t.Message = str "GENESIS") ∧
    demoNewChain.TransactionPool = [] ∧ demoNewChain.Peers = [] ∧
    demoNewChain.ChainID.length = demoEnv.IDLength ∧
    demoEnv.IDLength ≤ 128 ∧ demoNewChain.IsValid demoEnv = true) :=
  ⟨demoNewChain_run,
    NewBlockchain_spec demoEnv demoTimeString demoClock 156 demoNewChain demoNewChain_run⟩

/-- C13. `NewBlockchainWithIdentifier(id)` has no check on `id`: whenever the
construction of `NewBlockchain` returns a chain, it returns that chain with `ChainID`
replaced by `id`, for every `id`; and the returned chain is valid exactly when
`len(id) == IDLength`. -/
theorem NewBlockchainWithIdentifier_spec (E : Env) (timeString : Time → GoString)
    (now : Nat → Time) (fuel : Nat) (id : GoString) (b : Blockchain)
    (h : NewBlockchain E timeString now fuel = Run.done b) :
    NewBlockchainWithIdentifier E timeString now fuel id
      = Run.done { b with ChainID := id } ∧
    (Blockchain.IsValid E { b with ChainID := id } = true ↔ id.length = E.IDLength) := by
  refine ⟨by simp [NewBlockchainWithIdentifier, h], ?_⟩
  obtain ⟨g, hg, _, rfl⟩ := NewBlockchain_done E timeString now fuel b h
  obtain ⟨hv, _, hph, _, _⟩ := genesisLoop_done E g fuel _ hg
  simp only at hph
  rw [Repeat_zeroHash] at hph
  exact IsValid_single E g id _ hv hph

/-- Witness for C13: the identifier `abc` (length 3, `IDLength` is 16) is accepted at
construction and the chain is then not valid. -/
theorem NewBlockchainWithIdentifier_spec_witness :
    NewBlockchain demoEnv demoTimeString demoClock 156 = Run.done demoNewChain ∧
    NewBlockchainWithIdentifier demoEnv demoTimeString demoClock 156 (str "abc")
      = Run.done { demoNewChain with ChainID := str "abc" } ∧
    (Blockchain.IsValid demoEnv { demoNewChain with ChainID := str "abc" } = true ↔
      (str "abc").length = demoEnv.IDLength) ∧
    (str "abc").length ≠ demoEnv.IDLength :=
  ⟨demoNewChain_run,
    (NewBlockchainWithIdentifier_spec demoEnv demoTimeString demoClock 156 (str "abc")
      demoNewChain demoNewChain_run).1,
    (NewBlockchainWithIdentifier_spec demoEnv demoTimeString demoClock 156 (str "abc")
      demoNewChain demoNewChain_run).2,
    by decide⟩

/-- C14 (evaluation at failing inputs). Hosts that merely start with `localhost`, or
merely end with a dotted group pattern, pass `Peer.IsValid` and `NewPeer`, although
they are neither exactly `localhost` nor exactly four dotted groups of at most three
digits; the exact forms pass as well and a low port fails. -/
theorem Peer_IsValid_unanchored :
    Peer.IsValid ⟨str "localhost.example.org", 3000⟩ = true ∧
    Peer.IsValid ⟨str "example.org/1.2.3.4", 3000⟩ = true ∧
    Peer.IsValid ⟨str "1234.1.1.1", 3000⟩ = true ∧
    (NewPeer (str "localhost.example.org") 3000).2 = none ∧
    Peer.IsValid ⟨str "localhost", 3000⟩ = true ∧
    Peer.IsValid ⟨str "192.168.1.1", 3000⟩ = true ∧
    Peer.IsValid ⟨str "192.168.1.1", 999⟩ = false := by
  decide!

/-- C15 (evaluation at the failing input). On a chain without blocks `LastBlock` has
no block to return (Go: index out of range), and `MineNewBlock` and
`MineNewBlockAndApply` stop with that panic, for every fuel bound. -/
theorem LastBlock_empty_panics (E : Env) (now : Nat → Time) (fuel : Nat)
    (pool : List Transaction) (id : GoString) (peers : List Peer) (t : Time) :
    Blockchain.LastBlock ⟨[], pool, id, peers, t⟩ = none ∧
    Blockchain.MineNewBlock E now fuel ⟨[], pool, id, peers, t⟩ = Run.panic ∧
    Blockchain.MineNewBlockAndApply E now fuel ⟨[], pool, id, peers, t⟩ = Run.panic := by
  have h1 : Blockchain.LastBlock ⟨[], pool, id, peers, t⟩ = none := rfl
  have h2 : Blockchain.MineNewBlock E now fuel ⟨[], pool, id, peers, t⟩ = Run.panic := by
    simp [Blockchain.MineNewBlock, h1]
  exact ⟨h1, h2, by simp [Blockchain.MineNewBlockAndApply, h2]⟩

theorem Blockchain_valid_blocks (E : Env) (c : Blockchain) (h : c.IsValid E = true) :
    ∀ b ∈ c.Blocks, b.IsValid E = true := by
  rw [Blockchain_IsValid_char, links_iff] at h
  exact h.1.1

theorem iterate_incInt (k : Nat) (n : Int) (hlo : -2 ^ 63 ≤ n) (hhi : n < 2 ^ 63) :
    incInt^[k] n = (n + k + 2 ^ 63) % 2 ^ 64 - 2 ^ 63 := by
  induction k with
  | zero =>
    norm_num at hlo hhi ⊢
    omega
  | succ k ih =>
    rw [Function.iterate_succ_apply', ih]
    unfold incInt
    norm_num
    omega

/-- C17. Whenever `NewBlockchain` returns, the genesis block's nonce `n` satisfies
`n >= 13466`, the genesis block is valid, and for every `k` with `13466 <= k < n` the
same block with nonce `k` is not valid. The statement covers every run of fewer than
`2^63 - 13466` rounds of the search, the rounds a Go `int` nonce can count from 13466
without overflow. -/
theorem NewBlockchain_first_nonce (E : Env) (timeString : Time → GoString)
    (now : Nat → Time) (fuel : Nat) (c : Blockchain)
    (hfuel : (fuel : Int) < 2 ^ 63 - 13466)
    (h : NewBlockchain E timeString now fuel = Run.done c) :
    ∃ g : Block, c.Blocks = [g] ∧ 13466 ≤ g.Nonce ∧ g.IsValid E = true ∧
      ∀ k : Int, 13466 ≤ k → k < g.Nonce →
        Block.IsValid E { g with Nonce := k } = false := by
  obtain ⟨g, hg, _, rfl⟩ := NewBlockchain_done E timeString now fuel c h
  obtain ⟨hv, htx, hph, hts, kk, hkk, hn, hinv⟩ := genesisLoop_done E g fuel _ hg
  simp only at htx hph hts hn hinv
  have hiter : ∀ j : Nat, j ≤ fuel → incInt^[j] 13466 = 13466 + (j : Int) := by
    intro j hj
    rw [iterate_incInt j 13466 (by norm_num) (by norm_num)]
    norm_num at hfuel ⊢
    omega
  rw [hiter kk hkk] at hn
  refine ⟨g, rfl, by omega, hv, ?_⟩
  intro k hk1 hk2
  have hj : (k - 13466).toNat < kk := by omega
  have := hinv (k - 13466).toNat hj
  rw [hiter _ (by omega)] at this
  have hk : (13466 : Int) + ((k - 13466).toNat : Int) = k := by omega
  rw [hk] at this
  have hgk : ({ g with Nonce := k } : Block)
      = ⟨k, [⟨str "root", str "root", str "GENESIS", some [], Time.zero⟩],
          strings.Repeat (str "0") HashStringSize, Time.zero⟩ := by
    rw [← htx, ← hph, ← hts]
  rw [hgk]
  exact this

/-- Witness for C17: the 156 rounds of the search under `demoEnv`. -/
theorem NewBlockchain_first_nonce_witness :
    ((156 : Nat) : Int) < 2 ^ 63 - 13466 ∧
    NewBlockchain demoEnv demoTimeString demoClock 156 = Run.done demoNewChain ∧
    ∃ g : Block, demoNewChain.Blocks = [g] ∧ 13466 ≤ g.Nonce ∧ g.IsValid demoEnv = true ∧
      ∀ k : Int, 13466 ≤ k → k < g.Nonce →
        Block.IsValid demoEnv { g with Nonce := k } = false :=
  ⟨by norm_num, demoNewChain_run,
    NewBlockchain_first_nonce demoEnv demoTimeString demoClock 156 demoNewChain
      (by norm_num) demoNewChain_run⟩

theorem Block_IsValid_char (E : Env) (T : Nat) (b : Block) :
    b.IsValid { E with Target := T } = true ↔
      (∀ t ∈ b.Transactions, t.IsValid = true) ∧ b.PreviousHash.length = 128 ∧
        ∃ rest, b.Hash E = List.replicate T 0x30 ++ rest := by
  have hH : b.Hash { E with Target := T } = b.Hash E := rfl
  unfold Block.IsValid
  rw [← transactionsLoop_iff, ← Repeat_zero, ← HasPrefix_iff, hH]
  by_cases h1 : transactionsLoop b.Transactions = true <;>
  by_cases h2 : b.PreviousHash.length = 128 <;>
  by_cases h3 : strings.HasPrefix (b.Hash E) (strings.Repeat (str "0") T) = true <;>
  simp [h1, h2, h3, HashStringSize, sha512Size]

theorem sha512_abc :
    EncodeToString (sha512.Sum512 (str "abc")).1
      = str ("ddaf35a193617abacc417349ae20413112e6fa4e89a97ea20a9eeee64b55d39a"
        ++ "2192992a274fc1a836ba3c23a3feebbd454d4423643ce80e2a9ac94fa54ca49f") := by
  decide!

theorem Block_IsValid_of_hash (E : Env) (b : Block) (h : GoString) (hh : b.Hash E = h) :
    b.IsValid E = (transactionsLoop b.Transactions && (b.PreviousHash.length == HashStringSize)
      && strings.HasPrefix h (strings.Repeat (str "0") E.Target)) := by
  subst hh
  unfold Block.IsValid
  cases transactionsLoop b.Transactions <;>
  cases hl : (b.PreviousHash.length == HashStringSize) <;>
  cases strings.HasPrefix (b.Hash E) (strings.Repeat (str "0") E.Target) <;>
  simp_all

theorem NewEmptyBlock_Nonce (E : Env) : (NewEmptyBlock E).Nonce = 0 := by
  unfold NewEmptyBlock NewBlock
  simp only
  split <;> rfl

theorem goGenesisBlock_hash : goGenesisBlock.Hash (goEnv 1) = goGenesisHash := by
  decide!

theorem goGenesisBlock_valid : goGenesisBlock.IsValid (goEnv 1) = true := by
  rw [Block_IsValid_of_hash _ _ _ goGenesisBlock_hash]
  decide!

theorem aliasBlock_hash : aliasBlock.Hash (goEnv 1) = aliasBlockHash := by
  decide!

theorem aliasBlock_valid : aliasBlock.IsValid (goEnv 1) = true := by
  rw [Block_IsValid_of_hash _ _ _ aliasBlock_hash]
  decide!

theorem aliasOverwritten_invalid : aliasOverwritten.IsValid (goEnv 1) = false := by
  decide!

theorem aliasRewritten_invalid : aliasRewritten.IsValid (goEnv 1) = false := by
  decide!

theorem appliedBlock_valid : appliedBlock.IsValid (goEnv 1) = true := by
  decide!

theorem MemMineNewBlock_first (E : Env) (now : Nat → Time) (fuel : Nat) (σ σ' : Store)
    (b : MemBlockchain) (last : MemBlock) (ph : GoString) (s' : TxSlice)
    (hlast : b.Blocks[b.Blocks.length - 1]? = some last)
    (hph : (last.val σ).Hash E = ph)
    (happ : goAppend σ b.TransactionPool
      (NewTransactionNow (now 1) b.ChainID (str "root") (str "MINED")).1 = (σ', s'))
    (hv : Block.IsValid E ⟨0, σ'.read s', ph, now 0⟩ = true) :
    b.MineNewBlock E now fuel σ = (σ', Run.done ⟨0, s', ph, now 0⟩) := by
  unfold MemBlockchain.MineNewBlock
  simp only [hlast, hph, happ, NewEmptyBlock_Nonce]
  unfold memMineLoop
  simp [MemBlock.val, hv]

/-- C18 (evaluation of the code). A block valid under target `T` is valid under
another target `T'` exactly when its hash starts with `T'` characters `0`; so it stays
valid under every `T' <= T`: lowering `Target` invalidates no block mined with the
former target. -/
theorem IsValid_target_change (E : Env) (T T' : Nat) (b : Block)
    (h : b.IsValid { E with Target := T } = true) :
    (b.IsValid { E with Target := T' } = true ↔
      ∃ rest, b.Hash E = List.replicate T' 0x30 ++ rest) ∧
    (T' ≤ T → b.IsValid { E with Target := T' } = true) := by
  have hT := (Block_IsValid_char E T b).mp h
  obtain ⟨h1, h2, rest, h3⟩ := hT
  have hiff : b.IsValid { E with Target := T' } = true ↔
      ∃ rest, b.Hash E = List.replicate T' 0x30 ++ rest := by
    rw [Block_IsValid_char E T' b]
    exact ⟨fun hh => hh.2.2, fun hh => ⟨h1, h2, hh⟩⟩
  refine ⟨hiff, fun hle => hiff.mpr ⟨List.replicate (T - T') 0x30 ++ rest, ?_⟩⟩
  rw [h3, ← List.append_assoc, List.append_replicate_replicate]
  congr 2
  omega

/-- Witness for C18, with the Go standard library: the genesis block with nonce 13514
(SHA-512 hash `053eee08...`) is valid under target 1 and still valid under target 0. -/
theorem IsValid_target_change_witness :
    goGenesisBlock.IsValid { goEnv 1 with Target := 1 } = true ∧
    (goGenesisBlock.IsValid { goEnv 1 with Target := 0 } = true ↔
      ∃ rest, goGenesisBlock.Hash (goEnv 1) = List.replicate 0 0x30 ++ rest) ∧
    (0 ≤ 1 → goGenesisBlock.IsValid { goEnv 1 with Target := 0 } = true) :=
  ⟨goGenesisBlock_valid, IsValid_target_change (goEnv 1) 1 0 goGenesisBlock goGenesisBlock_valid⟩

theorem mineLoop_ne_panic (E : Env) (now : Nat → Time) (pool : List Transaction)
    (rw : Transaction) :
    ∀ (fuel k : Nat) (block : Block), mineLoop E now pool rw fuel k block ≠ Run.panic := by
  intro fuel
  induction fuel with
  | zero =>
    intro k block
    rw [mineLoop]
    by_cases hv : block.IsValid E = true <;> simp [hv]
  | succ n ih =>
    intro k block
    rw [mineLoop]
    by_cases hv : block.IsValid E = true
    · simp [hv]
    · simp only [hv, Bool.false_eq_true, if_false]
      exact ih _ _

/-- C20. On a chain whose identifier is empty after `strings.TrimSpace`, the reward
transaction built in `MineNewBlock` is the zero value `Transaction{}`, which is
invalid; every candidate block made of the pool and this reward fails
`Block.IsValid`, whatever its nonce, previous hash and timestamp; `MineNewBlock` never
returns a block, and on a chain with at least one block the search is still running at
every fuel bound. -/
theorem MineNewBlock_blank_identifier (E : Env) (now : Nat → Time) (c : Blockchain)
    (h : strings.TrimSpace c.ChainID = []) :
    (NewTransactionNow (now 1) c.ChainID (str "root") (str "MINED")).1 = Transaction.zero ∧
    Transaction.zero.IsValid = false ∧
    (∀ (n : Int) (ph : GoString) (ts : Time),
      Block.IsValid E ⟨n, c.TransactionPool ++ [Transaction.zero], ph, ts⟩ = false) ∧
    (∀ fuel blk, c.MineNewBlock E now fuel ≠ Run.done blk) ∧
    (c.Blocks ≠ [] → ∀ fuel, c.MineNewBlock E now fuel = Run.outOfFuel) := by
  have hrw : (NewTransactionNow (now 1) c.ChainID (str "root") (str "MINED")).1
      = Transaction.zero := by
    simp [NewTransactionNow, NewTransaction, Transaction.IsValid, h]
  have hblk : ∀ (n : Int) (ph : GoString) (ts : Time),
      Block.IsValid E ⟨n, c.TransactionPool ++ [Transaction.zero], ph, ts⟩ = false := by
    intro n ph ts
    rw [← Bool.not_eq_true]
    intro hv
    have := Block_valid_transactions E _ hv Transaction.zero (by simp)
    rw [zero_invalid] at this
    cases this
  have hnd : ∀ fuel blk, c.MineNewBlock E now fuel ≠ Run.done blk := by
    intro fuel blk hd
    obtain ⟨_, _, _, hvalid, htx⟩ := MineNewBlock_done E now fuel c blk hd
    have hval := Block_valid_transactions E blk hvalid
      ⟨c.ChainID, str "root", str "MINED", some [], now 1⟩ (by rw [htx]; simp)
    simp [Transaction.IsValid, h] at hval
  refine ⟨hrw, zero_invalid, hblk, hnd, ?_⟩
  intro hne fuel
  have hlast := LastBlock_eq_getLast c hne
  cases hm : c.MineNewBlock E now fuel with
  | done blk => exact absurd hm (hnd fuel blk)
  | outOfFuel => rfl
  | panic =>
    unfold Blockchain.MineNewBlock at hm
    simp only [hlast] at hm
    exact absurd hm (mineLoop_ne_panic E now _ _ _ _ _)

/-- Witness for C20: the identifier of `demoBlankChain` is two spaces. -/
theorem MineNewBlock_blank_identifier_witness :
    strings.TrimSpace demoBlankChain.ChainID = [] ∧
    demoBlankChain.Blocks ≠ [] ∧
    demoBlankChain.MineNewBlock demoEnv0 demoClock 5 = Run.outOfFuel :=
  ⟨by decide, by decide,
    (MineNewBlock_blank_identifier demoEnv0 demoClock demoBlankChain (by decide)).2.2.2.2
      (by decide) 5⟩

theorem Store.read_length (σ : Store) (s : TxSlice) (h : σ.fits s) :
    (σ.read s).length = s.len := by
  unfold Store.read
  rw [List.length_take]
  by_cases hc : s.cap = 0
  · have : s.len = 0 := by have := h.1; omega
    simp [this]
  · have := (h.2 hc).2
    have := h.1
    omega

theorem goAppend_read (σ : Store) (s : TxSlice) (t : Transaction) (h : σ.fits s) :
    (goAppend σ s t).1.read (goAppend σ s t).2 = σ.read s ++ [t] := by
  have hlen := Store.read_length σ s h
  unfold goAppend
  by_cases hlt : s.len < s.cap
  · have hc : s.cap ≠ 0 := by omega
    obtain ⟨ha, hl⟩ := h.2 hc
    simp only [hlt, if_true, Store.read]
    rw [List.getD_eq_getElem?_getD, List.getElem?_set_self ha]
    simp only [Option.getD_some]
    have hn : s.len < (List.getD σ s.array []).length := by omega
    rw [List.take_succ, List.getElem?_set_self hn]
    congr 1
    apply List.ext_getElem?
    intro i
    by_cases hi : i < s.len
    · rw [List.getElem?_take_of_lt hi, List.getElem?_take_of_lt hi,
        List.getElem?_set_ne (by omega)]
    · rw [List.getElem?_take_eq_none (by omega), List.getElem?_take_eq_none (by omega)]
  · simp only [hlt, if_false, Store.read]
    rw [List.getD_eq_getElem?_getD, List.getElem?_append_right (Nat.le_refl _)]
    simp only [Nat.sub_self, List.getElem?_cons_zero, Option.getD_some]
    have hr : (List.take s.len (List.getD σ s.array []) ++ [t]).length = s.len + 1 := by
      rw [List.length_append]
      exact congrArg (· + 1) hlen
    rw [List.take_append_of_le_length (by rw [hr])]
    rw [List.take_of_length_le (by rw [hr])]

theorem goAppend_overwrites (σ : Store) (s s2 : TxSlice) (t : Transaction)
    (h : σ.fits s) (hlt : s.len < s.cap) (harr : s2.array = s.array) :
    (goAppend σ s t).1.read s2 = (σ.read s2).set s.len t := by
  have hc : s.cap ≠ 0 := by omega
  obtain ⟨ha, hl⟩ := h.2 hc
  unfold goAppend
  simp only [hlt, if_true, Store.read, harr]
  rw [List.getD_eq_getElem?_getD, List.getElem?_set_self ha]
  simp only [Option.getD_some]
  apply List.ext_getElem?
  intro i
  by_cases hi : i < s2.len
  · rw [List.getElem?_take_of_lt hi]
    by_cases hs : s.len = i
    · subst hs
      rw [List.getElem?_set_self (by omega),
        List.getElem?_set_self (by rw [List.length_take]; omega)]
    · rw [List.getElem?_set_ne hs, List.getElem?_set_ne hs, List.getElem?_take_of_lt hi]
  · rw [List.getElem?_take_eq_none (by omega), List.getElem?_eq_none]
    rw [List.length_set, List.length_take]
    omega

theorem MemAddTransaction_pool (σ : Store) (c : MemBlockchain) (t : Transaction)
    (h : σ.fits c.TransactionPool) :
    ((c.AddTransaction σ t).2.1.val (c.AddTransaction σ t).1).TransactionPool
        = ((c.val σ).AddTransaction t).1.TransactionPool ∧
      (c.AddTransaction σ t).2.2 = ((c.val σ).AddTransaction t).2 := by
  unfold MemBlockchain.AddTransaction Blockchain.AddTransaction
  by_cases hv : t.IsValid = true
  · simp only [hv, Bool.not_true, Bool.false_eq_true, if_false, MemBlockchain.val]
    exact ⟨goAppend_read σ c.TransactionPool t h, trivial⟩
  · simp only [Bool.not_eq_true] at hv
    simp [hv, MemBlockchain.val]

theorem aliasPool3_run : aliasPool3 = (aliasStore3, aliasChain3, none) := by
  decide!

theorem aliasBlock_read : aliasMemBlock.val aliasStore = aliasBlock := by
  decide!

theorem aliasMine_run (fuel : Nat) :
    aliasChain3.MineNewBlock (goEnv 1) aliasClock fuel aliasStore3
      = (aliasStore, Run.done aliasMemBlock) :=
  MemMineNewBlock_first (goEnv 1) aliasClock fuel aliasStore3 aliasStore aliasChain3
    ⟨13514, ⟨0, 1, 1⟩, zeroHash, Time.zero⟩ goGenesisHash ⟨3, 4, 4⟩ (by decide!)
    goGenesisBlock_hash (by decide!) aliasBlock_valid

theorem aliasAddBlock_run :
    aliasChain3.AddBlock (goEnv 1) aliasStore aliasMemBlock = (aliasChain, none) := by
  unfold MemBlockchain.AddBlock
  rw [aliasBlock_read, aliasBlock_valid]
  decide!

theorem aliasChain_read :
    aliasChain.val aliasStore
      = ⟨[goGenesisBlock, aliasBlock], [aliasT1, aliasT2, aliasT3], str "0123456789abcdef", [],
          at2024 0⟩ := by
  decide!

theorem aliasChain_valid : (aliasChain.val aliasStore).IsValid (goEnv 1) = true := by
  rw [aliasChain_read, Blockchain_IsValid_char, links_iff]
  refine ⟨⟨?_, ?_, ?_⟩, by decide!, by decide!⟩
  · intro b hb
    simp only [List.mem_cons, List.mem_singleton, List.not_mem_nil, or_false] at hb
    rcases hb with rfl | rfl
    · exact goGenesisBlock_valid
    · exact aliasBlock_valid
  · intro _
    rfl
  · intro i hi hpos
    have hi1 : i = 1 := by
      simp only [List.length_cons, List.length_nil] at hi
      omega
    subst hi1
    exact goGenesisBlock_hash.symm

theorem appliedMine_run (fuel : Nat) :
    aliasChain.MineNewBlock (goEnv 1) applyClock fuel aliasStore
      = (appliedStore, Run.done ⟨0, ⟨3, 4, 4⟩, aliasBlockHash, at2024 30000000000⟩) :=
  MemMineNewBlock_first (goEnv 1) applyClock fuel aliasStore appliedStore aliasChain
    aliasMemBlock aliasBlockHash ⟨3, 4, 4⟩ (by decide!)
    (by rw [aliasBlock_read]; exact aliasBlock_hash) (by decide!) appliedBlock_valid

theorem applied_run (fuel : Nat) :
    aliasChain.MineNewBlockAndApply (goEnv 1) applyClock fuel aliasStore
      = (appliedStore, Run.done appliedChain) := by
  unfold MemBlockchain.MineNewBlockAndApply
  rw [appliedMine_run]
  rfl

theorem appliedChain_read :
    appliedChain.val appliedStore
      = ⟨[goGenesisBlock, aliasRewritten, appliedBlock], [], str "0123456789abcdef", [],
          at2024 0⟩ := by
  decide!

theorem aliasReached_holds : aliasReached :=
  ⟨aliasPool3_run, aliasMine_run, aliasAddBlock_run⟩

theorem aliasAdded_run : aliasAdded = (aliasStore4, aliasChain4, none) := by
  decide!

theorem aliasResolved_run : aliasResolved = (aliasStore4, aliasChain4, true) := by
  decide!

theorem aliasChain4_read :
    aliasChain4.val aliasStore4
      = ⟨[goGenesisBlock, aliasOverwritten], [aliasT1, aliasT2, aliasT3, aliasT4],
          str "0123456789abcdef", [], at2024 0⟩ := by
  decide!

theorem aliasChain4_invalid : (aliasChain4.val aliasStore4).IsValid (goEnv 1) = false := by
  cases h : (aliasChain4.val aliasStore4).IsValid (goEnv 1)
  · rfl
  · have hb := Blockchain_valid_blocks (goEnv 1) _ h aliasOverwritten
      (by rw [aliasChain4_read]; simp)
    rw [aliasOverwritten_invalid] at hb
    exact absurd hb (by decide)

/-- C16 (evaluation at the failing input). With the Go standard library and
`Target = 1`: after three `AddTransaction`, `MineNewBlock` and `AddBlock`, every pool
transaction, every block and every peer of the chain is valid, and the pool (length
3, capacity 4) shares its array with the transactions of the second block.
`AddTransaction(aliasT4)` then returns no error and writes `aliasT4` over the reward
transaction of that committed block: the chain now holds a block that is not valid. -/
theorem AddTransaction_overwrites_block :
    aliasReached ∧
    EntitiesValid (goEnv 1) (aliasChain.val aliasStore) ∧
    aliasAdded.2.2 = none ∧
    (aliasAdded.2.1.val aliasAdded.1).Blocks = [goGenesisBlock, aliasOverwritten] ∧
    aliasOverwritten.IsValid (goEnv 1) = false ∧
    ¬ EntitiesValid (goEnv 1) (aliasAdded.2.1.val aliasAdded.1) := by
  refine ⟨aliasReached_holds, ?_, ?_, ?_, aliasOverwritten_invalid, ?_⟩
  · rw [aliasChain_read]
    refine ⟨by decide!, ?_, by decide!⟩
    intro b hb
    simp only [List.mem_cons, List.mem_singleton, List.not_mem_nil, or_false] at hb
    rcases hb with rfl | rfl
    · exact goGenesisBlock_valid
    · exact aliasBlock_valid
  · rw [aliasAdded_run]
  · rw [aliasAdded_run, aliasChain4_read]
  · rw [aliasAdded_run, aliasChain4_read]
    intro h
    have hb := h.2.1 aliasOverwritten (by simp)
    rw [aliasOverwritten_invalid] at hb
    exact absurd hb (by decide)

/-- C19 (evaluation at the failing input). With the Go standard library and
`Target = 1`: the chain left by three `AddTransaction`, `MineNewBlock` and `AddBlock`
is valid; after `AddTransaction(aliasT4)`, which returns no error, it is not valid,
and neither is it after `ResolveTransactions([aliasT4])`, which returns true: the
append writes `aliasT4` over the last transaction of the second block. -/
theorem IsValid_lost_by_append :
    aliasReached ∧
    (aliasChain.val aliasStore).IsValid (goEnv 1) = true ∧
    aliasAdded.2.2 = none ∧
    (aliasAdded.2.1.val aliasAdded.1).IsValid (goEnv 1) = false ∧
    aliasResolved.2.2 = true ∧
    (aliasResolved.2.1.val aliasResolved.1).IsValid (goEnv 1) = false := by
  refine ⟨aliasReached_holds, aliasChain_valid, ?_, ?_, ?_, ?_⟩
  · rw [aliasAdded_run]
  · rw [aliasAdded_run]
    exact aliasChain4_invalid
  · rw [aliasResolved_run]
  · rw [aliasResolved_run]
    exact aliasChain4_invalid

/-- C10 (evaluation at the failing input). With the Go standard library and
`Target = 1`: on the valid chain left by three `AddTransaction`, `MineNewBlock` and
`AddBlock` (two blocks), `MineNewBlockAndApply` returns, but the earlier blocks are
not unchanged: the new reward transaction is written over the reward of the second
block after its hash was taken, so the new block carries the hash of a block the
chain no longer holds, the second block is no longer valid and neither is the chain. -/
theorem MineNewBlockAndApply_overwrites_block :
    aliasReached ∧
    (aliasChain.val aliasStore).IsValid (goEnv 1) = true ∧
    (aliasChain.val aliasStore).Blocks = [goGenesisBlock, aliasBlock] ∧
    (∀ fuel, aliasChain.MineNewBlockAndApply (goEnv 1) applyClock fuel aliasStore
      = (appliedStore, Run.done appliedChain)) ∧
    (appliedChain.val appliedStore).Blocks = [goGenesisBlock, aliasRewritten, appliedBlock] ∧
    aliasRewritten ≠ aliasBlock ∧
    appliedBlock.PreviousHash = aliasBlock.Hash (goEnv 1) ∧
    appliedBlock.PreviousHash ≠ aliasRewritten.Hash (goEnv 1) ∧
    aliasRewritten.IsValid (goEnv 1) = false ∧
    (appliedChain.val appliedStore).IsValid (goEnv 1) = false := by
  refine ⟨aliasReached_holds, aliasChain_valid, ?_, applied_run, ?_, by decide!,
    aliasBlock_hash.symm, ?_, aliasRewritten_invalid, ?_⟩
  · rw [aliasChain_read]
  · rw [appliedChain_read]
  · intro h
    have hv := Block_IsValid_of_hash (goEnv 1) aliasRewritten aliasBlockHash h.symm
    rw [aliasRewritten_invalid] at hv
    revert hv
    decide!
  · cases h : (appliedChain.val appliedStore).IsValid (goEnv 1)
    · rfl
    · have hb := Blockchain_valid_blocks (goEnv 1) _ h aliasRewritten
        (by rw [appliedChain_read]; simp)
      rw [aliasRewritten_invalid] at hb
      exact absurd hb (by decide)

end Chained
